import Mathlib

/-!
Verification of the hast helpers of the expressive-code core package
(`src/packages/@expressive-code/core/src/hast.ts`).

The development shallowly embeds the data model and the operations of the
source file: hast element nodes become a Lean structure whose ordered
property list models a JavaScript object, the inline style map becomes an
ordered association list with JavaScript `Map` semantics, and the inline
markdown pipeline becomes pure functions over character lists.  Parts of
the repository that the file imports but that are not among the sources
(the postcss declaration-list parser, the internal markdown tokenizer and
markdown parser, and the CSS string escaping helper) are modelled from the
specification; their doc comments say so explicitly.
-/

set_option maxHeartbeats 1000000

namespace ExpressiveCode

/-! ### Characters and small string helpers -/

/-- The double quote character. -/
def quoteD : Char := Char.ofNat 34

/-- The single quote character. -/
def quoteS : Char := Char.ofNat 39

/-- The backtick character. -/
def backtickChar : Char := Char.ofNat 96

/-- Whitespace in the sense of JavaScript's `String.prototype.trim`. -/
def jsWs (c : Char) : Bool := c.isWhitespace || c = Char.ofNat 11 || c = Char.ofNat 12

/-- JavaScript `String.prototype.trim`, on character lists. -/
def trimChars (l : List Char) : List Char :=
  ((l.dropWhile jsWs).reverse.dropWhile jsWs).reverse

/-! ### The hast data model -/

/-- A hast node: either a text node holding a literal string, or an element
node with a tag name, an ordered attribute list and ordered children. -/
inductive HastNode where
  | text (value : String)
  | element (tagName : String) (properties : List (String × String)) (children : List HastNode)

/-- A hast element, as operated on by the style helpers of `hast.ts`.
The `properties` list models the JavaScript properties object: an ordered
association list with at most one entry per key. -/
structure Element where
  tagName : String
  properties : List (String × String)
  children : List HastNode

/-- A hast root node, as returned by `fromInlineMarkdown`. -/
structure Root where
  children : List HastNode

/-- An ordered style map (CSS property name to raw value), modelling the
JavaScript `Map<string, string>` used by the style helpers. -/
abbrev StyleMap := List (String × String)

/-- Key lookup on an ordered association list (JavaScript `obj[k]` / `Map.get`). -/
def alookup (m : List (String × String)) (k : String) : Option String :=
  (m.find? (fun pv => pv.1 == k)).map (fun pv => pv.2)

/-- JavaScript assignment `obj[k] = v` / `Map.set`: an existing entry is
updated in place (keeping its position in iteration order), a new key is
appended at the end. -/
def recordSet (m : List (String × String)) (k v : String) : List (String × String) :=
  if m.any (fun pv => pv.1 == k) then
    m.map (fun pv => if pv.1 == k then (k, v) else pv)
  else m ++ [(k, v)]

/-- JavaScript `delete obj[k]` / `Map.delete`. -/
def recordDelete (m : List (String × String)) (k : String) : List (String × String) :=
  m.filter (fun pv => pv.1 != k)

/-- `setProperty` from `hast.ts`: sets a property on the given AST node;
the value `none` models `null` and removes the property. -/
def setProperty (node : Element) (propertyName : String) (value : Option String) : Element :=
  match value with
  | some v => { node with properties := recordSet node.properties propertyName v }
  | none => { node with properties := recordDelete node.properties propertyName }

/-! ### The style codec

`getInlineStyles` delegates the parsing of the style string to the external
`postcss` dependency, which is not among the repository sources.  The
declaration-list parser is therefore modelled from the specification:
declarations are split on semicolons at the top syntactic level (respecting
CSS nesting of quotes and parentheses), each declaration is split on its
first colon into a trimmed property and value, a chunk that is not a
declaration is skipped, and later duplicate properties overwrite earlier
ones while keeping the first occurrence's position. -/

/-- Modelled from the spec: splits a declaration list on semicolons at the top
syntactic level, respecting CSS nesting of quotes and parentheses (the
repository performs this via the external postcss parser). -/
def splitTopAux : List Char → List Char → Nat → Option Char → List (List Char)
  | [], acc, _, _ => [acc.reverse]
  | c :: rest, acc, depth, some q =>
    if c = q then splitTopAux rest (c :: acc) depth none
    else splitTopAux rest (c :: acc) depth (some q)
  | c :: rest, acc, depth, none =>
    if c = quoteD ∨ c = quoteS then splitTopAux rest (c :: acc) depth (some c)
    else if c = '(' then splitTopAux rest (c :: acc) (depth + 1) none
    else if c = ')' then splitTopAux rest (c :: acc) (depth - 1) none
    else if c = ';' ∧ depth = 0 then acc.reverse :: splitTopAux rest [] 0 none
    else splitTopAux rest (c :: acc) depth none

/-- Top-level semicolon split of a style declaration list. -/
def splitTopSemis (l : List Char) : List (List Char) := splitTopAux l [] 0 none

/-- Modelled from the spec: a single declaration is split on its first colon
into a trimmed property and value; a chunk without a colon or with an empty
property name is not a declaration and yields `none`. -/
def parseDecl (chunk : List Char) : Option (String × String) :=
  let pre := chunk.takeWhile (fun c => c != ':')
  let rest := chunk.dropWhile (fun c => c != ':')
  match rest with
  | [] => none
  | _ :: post =>
    let p := trimChars pre
    if p = [] then none
    else some (String.mk p, String.mk (trimChars post))

/-- One step of the declaration-list fold: a valid declaration is inserted
with `Map.set` semantics, anything else is skipped. -/
def parseStyleStep (m : StyleMap) (chunk : List Char) : StyleMap :=
  match parseDecl chunk with
  | some (p, v) => recordSet m p v
  | none => m

/-- Folds a list of declaration chunks into a style map. -/
def parseStyleList (chunks : List (List Char)) : StyleMap :=
  chunks.foldl parseStyleStep []

/-- Modelled from the spec: `parseStyle`, the tolerant CSS declaration-list
parser that the repository obtains from the external postcss dependency. -/
def parseStyle (raw : String) : StyleMap := parseStyleList (splitTopSemis raw.data)

/-- `getInlineStyles` from `hast.ts`: reads the node's `style` attribute,
trims it, returns the empty map for an empty or missing attribute, and
otherwise parses it as a declaration list. -/
def getInlineStyles (node : Element) : StyleMap :=
  let styleString := String.mk (trimChars ((alookup node.properties "style").getD "").data)
  if styleString = "" then [] else parseStyle styleString

/-- The serialized form `prop:value` of one style entry (a postcss
`Declaration` with `raws.between` set to `":"`). -/
def declChars (pv : String × String) : List Char := pv.1.data ++ ':' :: pv.2.data

/-- `Array.prototype.join(';')` on character lists. -/
def joinSemis : List (List Char) → List Char
  | [] => []
  | [d] => d
  | d :: rest => d ++ ';' :: joinSemis rest

/-- The serialized declaration list of a style map. -/
def serializeChars (styles : StyleMap) : List Char := joinSemis (styles.map declChars)

/-- `setInlineStyles` from `hast.ts`: serializes the style map entries as
`prop:value` joined with `;` and stores the result in the node's `style`
attribute, overwriting any existing styles. -/
def setInlineStyles (node : Element) (styles : StyleMap) : Element :=
  setProperty node "style" (some (String.mk (serializeChars styles)))

/-- Modelled from the spec: `serializeCssStringValue` (the helper lives in
`src/internal/escaping`, which is not among the sources) — backslash-escapes
quotes, backslashes and control characters per CSS string-value rules. -/
def serializeCssStringValue (value : String) : String :=
  String.mk ((value.data.map (fun c =>
    if c = '\\' ∨ c = quoteS ∨ c = quoteD ∨ c.toNat < 32 then ['\\', c] else [c])).flatten)

/-- The `valueFormat` parameter of `setInlineStyle`. -/
inductive ValueFormat where
  | raw
  | str
deriving DecidableEq

/-- `setInlineStyle` from `hast.ts`: reads the current style map, sets the
given property (serializing the value as a CSS string when requested) or —
only when the value is `null`/`none` — deletes it, and writes the map back. -/
def setInlineStyle (node : Element) (cssProperty : String) (value : Option String)
    (valueFormat : ValueFormat := ValueFormat.raw) : Element :=
  let styles := getInlineStyles node
  let styles :=
    match value with
    | some v =>
      recordSet styles cssProperty
        (if valueFormat = ValueFormat.str then serializeCssStringValue v else v)
    | none => recordDelete styles cssProperty
  setInlineStyles node styles

/-- A character that the top-level semicolon splitter passes through unchanged:
not a separator, not a quote, not a parenthesis. -/
def splitPlain (c : Char) : Prop :=
  c ≠ ';' ∧ c ≠ quoteD ∧ c ≠ quoteS ∧ c ≠ '(' ∧ c ≠ ')'

instance (c : Char) : Decidable (splitPlain c) := by
  unfold splitPlain
  infer_instance

/-- The per-entry side conditions of the amended round-trip claim: a nonempty, trimmed
property name containing no colon and no splitter-relevant character, and a trimmed
value containing no splitter-relevant character. -/
def RoundTripEntry (pv : String × String) : Prop :=
  pv.1 ≠ "" ∧ trimChars pv.1.data = pv.1.data ∧ trimChars pv.2.data = pv.2.data ∧
  (∀ c ∈ pv.1.data, c ≠ ':' ∧ splitPlain c) ∧ (∀ c ∈ pv.2.data, splitPlain c)

instance (pv : String × String) : Decidable (RoundTripEntry pv) := by
  unfold RoundTripEntry
  infer_instance

/-- The example element of the duplicate-property test. -/
def elC4 : Element := ⟨"span", [("style", "a:1;b:2;a:3")], []⟩

/-! ### The inline markdown pipeline

`fromInlineMarkdown` (lines 180–195 of `hast.ts`) is embedded directly; the
tokenizer (`src/internal/markdown-tokenizer`) and the parser
(`src/internal/markdown-parser`) it calls are files of the repository that are
not among the sources, so both are modelled from the specification
(sections 4.1 and 4.2).  The recursive functions below take an explicit fuel
argument so that they are structurally recursive and evaluate inside the
kernel; one unit of fuel is spent per consumed input character, so the input
length is always a sufficient fuel. -/

/-- Horizontal whitespace: JavaScript's `[^\S\r\n]` character class, on the
practically occurring whitespace characters. -/
def isHws (c : Char) : Bool :=
  c = ' ' || c = '\t' || c = Char.ofNat 11 || c = Char.ofNat 12

/-- One left-to-right pass of `markdown.replaceAll(/[^\S\r\n]*\r?\n[^\S\r\n]*/g, '\n')`
(line 184 of `hast.ts`): any run of horizontal whitespace surrounding a line break
collapses to a single newline. -/
def normFuel : Nat → List Char → List Char
  | 0, l => l
  | fuel + 1, l =>
    match l with
    | [] => []
    | c :: rest =>
      let t := (c :: rest).dropWhile isHws
      if t.take 2 = ['\r', '\n'] then
        '\n' :: normFuel fuel ((t.drop 2).dropWhile isHws)
      else if t.take 1 = ['\n'] then
        '\n' :: normFuel fuel ((t.drop 1).dropWhile isHws)
      else c :: normFuel fuel rest

/-- The line-break normalization step of `fromInlineMarkdown`. -/
def normalizeLineBreaks (s : String) : String := String.mk (normFuel s.data.length s.data)

/-- `markdown.split(/\n{2,}/)` (line 187 of `hast.ts`): split on runs of two or more
newlines. -/
def splitFuel : Nat → List Char → List Char → List (List Char)
  | 0, l, acc => [acc.reverse ++ l]
  | fuel + 1, l, acc =>
    match l with
    | [] => [acc.reverse]
    | '\n' :: rest =>
      match rest with
      | '\n' :: _ =>
        acc.reverse :: splitFuel fuel (rest.dropWhile (fun c => c == '\n')) []
      | _ => splitFuel fuel rest ('\n' :: acc)
    | c :: rest => splitFuel fuel rest (c :: acc)

/-- The paragraph split of `fromInlineMarkdown`. -/
def splitParagraphs (s : String) : List String :=
  (splitFuel s.data.length s.data []).map String.mk

/-- `part.replaceAll(/\n+/g, ' ')` (line 189 of `hast.ts`): collapse every newline run
into a single space. -/
def collapseFuel : Nat → List Char → List Char
  | 0, l => l
  | fuel + 1, l =>
    match l with
    | [] => []
    | c :: rest =>
      if c = '\n' then ' ' :: collapseFuel fuel (rest.dropWhile (fun d => d == '\n'))
      else c :: collapseFuel fuel rest

/-- The newline-collapsing step of `fromInlineMarkdown`. -/
def collapseNewlines (s : String) : String := String.mk (collapseFuel s.data.length s.data)

/-- Modelled from the spec: the token type of the inline markdown tokenizer.  Code spans
and links are resolved by the tokenizer (their content is captured opaquely); emphasis
markers carry their weight and their original marker characters. -/
inductive Token where
  | text (s : String)
  | emph (double : Bool) (raw : String)
  | code (content : String)
  | link (label : String) (url : String)
  | escaped (c : Char)

/-- Splits off everything before the first occurrence of `c`; `none` when `c` does not
occur in the list. -/
def breakAt (c : Char) (l : List Char) : Option (List Char × List Char) :=
  match l.dropWhile (fun d => d != c) with
  | [] => none
  | _ :: after => some (l.takeWhile (fun d => d != c), after)

/-- Scans the input following an opening bracket for the full `label](url)` pattern. -/
def scanLink (rest : List Char) : Option (List Char × List Char × List Char) :=
  match breakAt ']' rest with
  | none => none
  | some (label, r1) =>
    match r1 with
    | '(' :: r2 =>
      match breakAt ')' r2 with
      | none => none
      | some (url, after) => some (label, url, after)
    | _ => none

/-- Emits the accumulated (reversed) text characters as a single text token in front of
the given token list. -/
def withText (acc : List Char) (ts : List Token) : List Token :=
  if acc.isEmpty then ts else Token.text (String.mk acc.reverse) :: ts

/-- Modelled from the spec: the inline markdown tokenizer
(`src/internal/markdown-tokenizer` is not among the sources).  A backslash escapes the
following character; runs of one or two `*` or `_` become emphasis-marker candidates;
a backtick captures an opaque code span up to the next backtick (an unterminated
backtick degrades to literal text); `[label](url)` becomes a link token when links are
allowed and the full pattern is present, otherwise the bracket is literal text;
everything else coalesces into text tokens. -/
def tokFuel : Nat → Bool → List Char → List Char → List Token
  | 0, _, _, acc => withText acc []
  | fuel + 1, allowLinks, l, acc =>
    match l with
    | [] => withText acc []
    | c :: rest =>
      if c = '\\' then
        match rest with
        | c2 :: rest2 =>
          withText acc (Token.escaped c2 :: tokFuel fuel allowLinks rest2 [])
        | [] => withText (c :: acc) []
      else if c = '*' ∨ c = '_' then
        if rest.head? = some c then
          withText acc
            (Token.emph true (String.mk [c, c]) :: tokFuel fuel allowLinks rest.tail [])
        else
          withText acc (Token.emph false (String.mk [c]) :: tokFuel fuel allowLinks rest [])
      else if c = backtickChar then
        match breakAt backtickChar rest with
        | some (content, after) =>
          withText acc (Token.code (String.mk content) :: tokFuel fuel allowLinks after [])
        | none => tokFuel fuel allowLinks rest (c :: acc)
      else if c = '[' ∧ allowLinks = true then
        match scanLink rest with
        | some (label, url, after) =>
          withText acc
            (Token.link (String.mk label) (String.mk url) ::
              tokFuel fuel allowLinks after [])
        | none => tokFuel fuel allowLinks rest (c :: acc)
      else tokFuel fuel allowLinks rest (c :: acc)

/-- `tokenizeInlineMarkdown` from `src/internal/markdown-tokenizer`, modelled from the
spec. -/
def tokenizeInlineMarkdown (s : String) : List Token :=
  tokFuel s.data.length true s.data []

/-- The tokenizer variant used for the recursive parse of link label text: a `[` inside
link text is literal, so links never nest. -/
def tokenizeNoLinks (s : String) : List Token :=
  tokFuel s.data.length false s.data []

/-- The punctuation excluded from the end of an autolinked URL. -/
def trailingPunct (c : Char) : Bool :=
  c = '.' || c = ',' || c = ')' || c = ':' || c = ';' || c = '!' || c = '?'

/-- A character that can belong to a bare URL: any non-whitespace character. -/
def isUrlChar (c : Char) : Bool := !c.isWhitespace

/-- Whether the first list is a prefix of the second. -/
def startsWithChars : List Char → List Char → Bool
  | [], _ => true
  | _ :: _, [] => false
  | p :: ps, c :: cs => p == c && startsWithChars ps cs

/-- Whether the list starts with the literal characters `http://` or `https://`. -/
def httpAt (l : List Char) : Bool :=
  startsWithChars "http://".data l || startsWithChars "https://".data l

/-- Drops trailing punctuation from a URL run. -/
def dropTrailingPunct (l : List Char) : List Char :=
  (l.reverse.dropWhile trailingPunct).reverse

/-- Wraps a nonempty character list as a single text node. -/
def textIfNonempty (l : List Char) : List HastNode :=
  if l.isEmpty then [] else [HastNode.text (String.mk l)]

/-- Modelled from the spec: the autolink pass — bare `http://` / `https://` URLs inside
text runs are recognized, the maximal non-whitespace run is taken, trailing punctuation
is excluded from the URL and left as following text, and the URL becomes a link element
whose single child is the URL text. -/
def autoFuel : Nat → List Char → List Char → List HastNode
  | 0, acc, l => textIfNonempty (acc.reverse ++ l)
  | fuel + 1, acc, l =>
    match l with
    | [] => textIfNonempty acc.reverse
    | c :: rest =>
      if httpAt (c :: rest) then
        let urlRun := (c :: rest).takeWhile isUrlChar
        let url := dropTrailingPunct urlRun
        let punct := urlRun.drop url.length
        let after := (c :: rest).drop urlRun.length
        textIfNonempty acc.reverse ++
          (HastNode.element "a" [("href", String.mk url)] [HastNode.text (String.mk url)] ::
            autoFuel fuel punct.reverse after)
      else autoFuel fuel (c :: acc) rest

/-- The autolink transformation of one text run. -/
def autolinkText (s : String) : List HastNode := autoFuel s.data.length [] s.data

/-- An open emphasis frame of the markdown parser: its weight, its original marker
characters, and the children accumulated since it was opened. -/
structure Frame where
  double : Bool
  raw : String
  children : List HastNode

/-- The parser state: the root node list and the stack of open frames, top first. -/
structure PState where
  root : List HastNode
  stack : List Frame

/-- Appends one node to a node list, extending the last text node when both are text. -/
def appendNode : List HastNode → HastNode → List HastNode
  | [], n => [n]
  | [x], n =>
    match x, n with
    | HastNode.text a, HastNode.text b => [HastNode.text (a ++ b)]
    | x, n => [x, n]
  | x :: y :: rest, n => x :: appendNode (y :: rest) n

/-- Appends several nodes in order. -/
def appendNodes (l : List HastNode) (ns : List HastNode) : List HastNode :=
  ns.foldl appendNode l

/-- Appends one node to the list owned by the current top of stack, or to the root when
the stack is empty. -/
def pushNode (st : PState) (n : HastNode) : PState :=
  match st.stack with
  | [] => { st with root := appendNode st.root n }
  | f :: fs => { st with stack := { f with children := appendNode f.children n } :: fs }

/-- Modelled from the spec: closing an emphasis span.  Walking down the stack, every
more recently opened (unmatched) frame is flushed as the literal text of its marker
characters followed by its accumulated children; the first frame of the sought weight is
wrapped into an emphasis or strong-emphasis element.  Returns the nodes to push and the
remaining stack. -/
def closeLoop (w : Bool) (carry : List HastNode) : List Frame → List HastNode × List Frame
  | [] => (carry, [])
  | f :: fs =>
    if f.double = w then
      ([HastNode.element (if w then "strong" else "em") [] (appendNodes f.children carry)],
        fs)
    else closeLoop w (HastNode.text f.raw :: appendNodes f.children carry) fs

/-- One emphasis-marker step: closes the innermost matching open frame, or opens a new
frame when no frame of this weight is open. -/
def stepEmph (w : Bool) (raw : String) (st : PState) : PState :=
  if st.stack.any (fun f => f.double == w) then
    let res := closeLoop w [] st.stack
    res.1.foldl pushNode { root := st.root, stack := res.2 }
  else { st with stack := ⟨w, raw, []⟩ :: st.stack }

/-- Modelled from the spec: one parser step on a token (section 4.2 of the spec).  Text
runs are appended (autolinked when enabled), escapes are resolved to text, code spans
become opaque code elements, links become link elements with an `href` attribute and
recursively parsed label children, and emphasis markers open or close frames. -/
def stepToken (autolink : Bool) (resolveLink : String → List HastNode) (st : PState) :
    Token → PState
  | Token.text s =>
    if autolink then (autolinkText s).foldl pushNode st else pushNode st (HastNode.text s)
  | Token.escaped c => pushNode st (HastNode.text (String.mk [c]))
  | Token.code content => pushNode st (HastNode.element "code" [] [HastNode.text content])
  | Token.link label url =>
    pushNode st (HastNode.element "a" [("href", url)] (resolveLink label))
  | Token.emph w raw => stepEmph w raw st

/-- Modelled from the spec: the end-of-input flush — every remaining open frame,
innermost first, becomes the literal text of its marker characters followed by its
accumulated children, so no input is dropped. -/
def finalizeLoop (carry : List HastNode) : List Frame → List HastNode
  | [] => carry
  | f :: fs => finalizeLoop (HastNode.text f.raw :: appendNodes f.children carry) fs

/-- Runs the parser over a token list. -/
def parseTokensWith (autolink : Bool) (resolveLink : String → List HastNode)
    (ts : List Token) : List HastNode :=
  let st := ts.foldl (stepToken autolink resolveLink) ⟨[], []⟩
  appendNodes st.root (finalizeLoop [] st.stack)

/-- The recursive parse of a link label: tokenized without link syntax, so a nested `[`
inside link text is literal. -/
def parseLinkLabel (autolink : Bool) (label : String) : List HastNode :=
  parseTokensWith autolink (fun _ => []) (tokenizeNoLinks label)

/-- `inlineMarkdownTokensToHast` from `src/internal/markdown-parser`, modelled from the
spec. -/
def inlineMarkdownTokensToHast (tokens : List Token) (autolink : Bool) : Root :=
  Root.mk (parseTokensWith autolink (parseLinkLabel autolink) tokens)

/-- The options record of `fromInlineMarkdown` (`FromMarkdownOptions` in `hast.ts`). -/
structure FromMarkdownOptions where
  autolink : Bool := true
  paragraphs : Bool := false

/-- `fromInlineMarkdown` from `hast.ts` (lines 180–195): normalizes line breaks, splits
the input into paragraph parts when the `paragraphs` option is set, collapses the
remaining newline runs of each part into single spaces, tokenizes and parses each part,
wraps each part's nodes in a paragraph element when `paragraphs` is set, and concatenates
everything into one root node. -/
def fromInlineMarkdown (markdown : String) (options : FromMarkdownOptions := {}) : Root :=
  let markdown := normalizeLineBreaks markdown
  let parts := if options.paragraphs then splitParagraphs markdown else [markdown]
  let content := parts.map (fun part =>
    let tokens := tokenizeInlineMarkdown (collapseNewlines part)
    let root := inlineMarkdownTokensToHast tokens options.autolink
    if options.paragraphs then [HastNode.element "p" [] root.children] else root.children)
  Root.mk content.flatten

/-- Whether a node is a paragraph wrapper element. -/
def isParagraph : HastNode → Bool
  | HastNode.element t _ _ => t == "p"
  | _ => false

/-- A node list containing no paragraph wrapper element. -/
def NoPara (l : List HastNode) : Prop := ∀ n ∈ l, isParagraph n = false

/-- The parser-state invariant behind the paragraph-free output of the parser. -/
def StateNoPara (st : PState) : Prop :=
  NoPara st.root ∧ ∀ f ∈ st.stack, NoPara f.children

/-- A character with no role in the markdown tokenizer, the line-break normalizer or the
autolink scanner; the unmatched-marker theorem quantifies over strings of these. -/
def PlainChar (c : Char) : Prop :=
  c ≠ '*' ∧ c ≠ '_' ∧ c ≠ backtickChar ∧ c ≠ '[' ∧ c ≠ '\\' ∧
  c ≠ '\n' ∧ c ≠ '\r' ∧ c ≠ ':'

instance (c : Char) : Decidable (PlainChar c) := by
  unfold PlainChar
  infer_instance

/-- The raw marker characters of an emphasis marker: one or two copies of the marker
character (`*` or `_`). -/
def markerChars (m : Char) (w : Bool) : String :=
  if w then String.mk [m, m] else String.mk [m]

/-! ### Association-list lemmas -/

theorem getInlineStyles_eq (node : Element) :
    getInlineStyles node =
      if String.mk (trimChars ((alookup node.properties "style").getD "").data) = "" then []
      else parseStyle
        (String.mk (trimChars ((alookup node.properties "style").getD "").data)) := rfl

theorem alookup_nil (k : String) : alookup [] k = none := rfl

theorem alookup_cons (pv : String × String) (m : List (String × String)) (k : String) :
    alookup (pv :: m) k = if pv.1 = k then some pv.2 else alookup m k := by
  by_cases h : pv.1 = k
  · simp [alookup, List.find?, h]
  · have hb : (pv.1 == k) = false := by simp [h]
    simp [alookup, List.find?, hb, h]

theorem alookup_map_set_ne (m : StyleMap) (k v k' : String) (h : k' ≠ k) :
    alookup (m.map (fun pv => if pv.1 == k then (k, v) else pv)) k' = alookup m k' := by
  have hne : ¬ k = k' := fun hkk => h (Eq.symm hkk)
  induction m with
  | nil => rfl
  | cons pv m ih =>
    simp only [List.map_cons]
    by_cases hpv : pv.1 = k
    · simp only [hpv, beq_self_eq_true, if_true]
      rw [alookup_cons, alookup_cons]
      simp only [hpv]
      rw [if_neg hne, if_neg hne]
      exact ih
    · have hb : (pv.1 == k) = false := by simp [hpv]
      simp only [hb, Bool.false_eq_true, if_false]
      rw [alookup_cons, alookup_cons]
      by_cases hk' : pv.1 = k'
      · simp [hk']
      · rw [if_neg hk', if_neg hk']
        exact ih

theorem alookup_append_ne (m : StyleMap) (k v k' : String) (h : k' ≠ k) :
    alookup (m ++ [(k, v)]) k' = alookup m k' := by
  have hne : ¬ k = k' := fun hkk => h (Eq.symm hkk)
  induction m with
  | nil =>
    rw [List.nil_append, alookup_cons]
    rw [if_neg hne]
  | cons pv m ih =>
    rw [List.cons_append, alookup_cons, alookup_cons]
    by_cases hk' : pv.1 = k'
    · simp [hk']
    · rw [if_neg hk', if_neg hk']
      exact ih

theorem alookup_recordSet_ne (m : StyleMap) (k v k' : String) (h : k' ≠ k) :
    alookup (recordSet m k v) k' = alookup m k' := by
  unfold recordSet
  split
  · exact alookup_map_set_ne m k v k' h
  · exact alookup_append_ne m k v k' h

theorem alookup_recordSet_self (m : StyleMap) (k v : String) :
    alookup (recordSet m k v) k = some v := by
  unfold recordSet
  split
  case isTrue hany =>
    induction m with
    | nil => simp at hany
    | cons pv m ih =>
      simp only [List.map_cons]
      by_cases hpv : pv.1 = k
      · simp only [hpv, beq_self_eq_true, if_true]
        rw [alookup_cons]
        simp
      · have hb : (pv.1 == k) = false := by simp [hpv]
        simp only [hb, Bool.false_eq_true, if_false]
        rw [alookup_cons, if_neg hpv]
        apply ih
        simpa [List.any_cons, hb] using hany
  case isFalse hany =>
    induction m with
    | nil =>
      rw [List.nil_append, alookup_cons]
      simp
    | cons pv m ih =>
      have hpv : ¬(pv.1 = k) := by
        intro hc
        exact hany (by simp [List.any_cons, hc])
      rw [List.cons_append, alookup_cons, if_neg hpv]
      apply ih
      intro hc
      apply hany
      simp only [List.any_cons, Bool.or_eq_true]
      exact Or.inr hc

theorem recordSet_keys (m : StyleMap) (k v : String) :
    (recordSet m k v).map Prod.fst =
      if k ∈ m.map Prod.fst then m.map Prod.fst else m.map Prod.fst ++ [k] := by
  have hmem : (m.any (fun pv => pv.1 == k)) = true ↔ k ∈ m.map Prod.fst := by
    simp only [List.any_eq_true, List.mem_map, beq_iff_eq]
  unfold recordSet
  split
  case isTrue hany =>
    rw [if_pos (hmem.mp hany), List.map_map]
    apply List.map_congr_left
    intro pv _
    by_cases hpv : pv.1 = k
    · simp [hpv]
    · simp [hpv]
  case isFalse hany =>
    rw [if_neg (fun hc => hany (hmem.mpr hc)), List.map_append]
    rfl

/-! ### Style claim theorems -/

/-- C1 (evidence of the code bug): calling `setInlineStyle` with the empty string
as the value does not delete the key, contrary to the claim and to the function's
own documentation comment — the style map read back afterwards still contains the
property, mapped to the empty value. -/
theorem setInlineStyle_empty_value_keeps_key :
    getInlineStyles (setInlineStyle ⟨"span", [], []⟩ "color" (some "") ValueFormat.raw)
      = [("color", "")] := by decide

/-- C9: for a node with no `style` property, or whose `style` property trims to the
empty string, `getInlineStyles` returns the empty map. -/
theorem getInlineStyles_blank_style (node : Element)
    (h : trimChars ((alookup node.properties "style").getD "").data = []) :
    getInlineStyles node = [] := by
  unfold getInlineStyles
  rw [h]
  rfl

theorem getInlineStyles_blank_style_witness :
    getInlineStyles ⟨"span", [("style", "   ")], []⟩ = [] :=
  getInlineStyles_blank_style ⟨"span", [("style", "   ")], []⟩ (by decide)

/-- C10: `setInlineStyle` modifies only the `style` key of the node's properties:
the tag name, the children, and the lookup of every other property are unchanged. -/
theorem setInlineStyle_frame (node : Element) (p : String) (v : Option String)
    (fmt : ValueFormat) :
    (setInlineStyle node p v fmt).tagName = node.tagName ∧
    (setInlineStyle node p v fmt).children = node.children ∧
    ∀ k : String, k ≠ "style" →
      alookup (setInlineStyle node p v fmt).properties k = alookup node.properties k := by
  unfold setInlineStyle setInlineStyles setProperty
  exact ⟨rfl, rfl, fun k hk => alookup_recordSet_ne _ _ _ k hk⟩

theorem setInlineStyle_frame_witness :
    alookup (setInlineStyle ⟨"span", [("class", "note"), ("style", "color:red")],
        [HastNode.text "hi"]⟩ "width" (some "10px") ValueFormat.raw).properties "class"
      = alookup (⟨"span", [("class", "note"), ("style", "color:red")],
        [HastNode.text "hi"]⟩ : Element).properties "class" :=
  (setInlineStyle_frame ⟨"span", [("class", "note"), ("style", "color:red")],
    [HastNode.text "hi"]⟩ "width" (some "10px") ValueFormat.raw).2.2 "class" (by decide)

theorem parseStyleList_all_none_aux (chunks : List (List Char))
    (h : ∀ chunk ∈ chunks, parseDecl chunk = none) :
    ∀ acc : StyleMap, chunks.foldl parseStyleStep acc = acc := by
  induction chunks with
  | nil => intro acc; rfl
  | cons c cs ih =>
    intro acc
    have hc : parseStyleStep acc c = acc := by
      unfold parseStyleStep
      rw [h c (by simp)]
    rw [List.foldl_cons, hc]
    exact ih (fun ch hch => h ch (by simp [hch])) acc

/-- C7: the style parser never raises and degrades to the empty map: whenever no chunk
of the trimmed style string's top-level semicolon split is a valid declaration — in
particular whenever parsing of the whole string fails — `getInlineStyles` returns the
empty map. -/
theorem style_parse_failure_yields_empty (node : Element)
    (h : ∀ chunk ∈ splitTopSemis (trimChars ((alookup node.properties "style").getD "").data),
        parseDecl chunk = none) :
    getInlineStyles node = [] := by
  rw [getInlineStyles_eq]
  split
  · rfl
  · unfold parseStyle parseStyleList
    exact parseStyleList_all_none_aux _ h []

theorem style_parse_failure_yields_empty_witness :
    getInlineStyles ⟨"span", [("style", "not a style !!")], []⟩ = [] :=
  style_parse_failure_yields_empty ⟨"span", [("style", "not a style !!")], []⟩ (by decide)

theorem parseStyleList_skip (xs ys : List (List Char)) (bad : List Char)
    (hbad : parseDecl bad = none) :
    parseStyleList (xs ++ bad :: ys) = parseStyleList (xs ++ ys) := by
  unfold parseStyleList
  rw [List.foldl_append, List.foldl_append, List.foldl_cons]
  have hstep : parseStyleStep (xs.foldl parseStyleStep []) bad = xs.foldl parseStyleStep [] := by
    unfold parseStyleStep
    rw [hbad]
  rw [hstep]

/-- C3: a single malformed declaration inside an otherwise valid declaration list is
skipped and is not fatal to the rest: if the top-level split of the node's trimmed style
string is `xs ++ bad :: ys` where `bad` is not a valid declaration, the resulting map is
the one obtained from the remaining chunks `xs ++ ys` alone. -/
theorem malformed_declaration_skipped (node : Element) (xs ys : List (List Char))
    (bad : List Char)
    (hsplit : splitTopSemis (trimChars ((alookup node.properties "style").getD "").data)
        = xs ++ bad :: ys)
    (hbad : parseDecl bad = none) :
    getInlineStyles node = parseStyleList (xs ++ ys) := by
  rw [getInlineStyles_eq]
  split
  case isTrue hempty =>
    have h0 : trimChars ((alookup node.properties "style").getD "").data = [] := by
      have := congrArg String.data hempty
      simpa using this
    rw [h0] at hsplit
    have hx : ([] : List Char) :: ([] : List (List Char)) = xs ++ bad :: ys := by
      rw [← hsplit]
      rfl
    cases xs with
    | nil =>
      rw [List.nil_append] at hx
      injection hx with h1 h2
      rw [List.nil_append, ← h2]
      rfl
    | cons x xs' =>
      exfalso
      rw [List.cons_append] at hx
      injection hx with h1 h2
      exact absurd h2.symm (by simp)
  case isFalse =>
    unfold parseStyle
    have hdata : (String.mk (trimChars
        ((alookup node.properties "style").getD "").data)).data
        = trimChars ((alookup node.properties "style").getD "").data := rfl
    rw [hdata, hsplit]
    exact parseStyleList_skip xs ys bad hbad

theorem malformed_declaration_skipped_witness :
    parseDecl ['f', 'o', 'o'] = none ∧
    getInlineStyles ⟨"span", [("style", "a:1;foo;b:2")], []⟩
      = parseStyleList [['a', ':', '1'], ['b', ':', '2']] :=
  ⟨by decide, malformed_declaration_skipped ⟨"span", [("style", "a:1;foo;b:2")], []⟩
    [['a', ':', '1']] [['b', ':', '2']] ['f', 'o', 'o'] (by decide) (by decide)⟩

theorem parseStyleList_keys_nodup (chunks : List (List Char)) :
    ((parseStyleList chunks).map Prod.fst).Nodup := by
  suffices h : ∀ acc : StyleMap, (acc.map Prod.fst).Nodup →
      ((chunks.foldl parseStyleStep acc).map Prod.fst).Nodup from h [] (by simp)
  induction chunks with
  | nil => intro acc h; simpa using h
  | cons c cs ih =>
    intro acc h
    simp only [List.foldl_cons]
    apply ih
    unfold parseStyleStep
    cases hd : parseDecl c with
    | none => exact h
    | some pv =>
      obtain ⟨p, v⟩ := pv
      rw [recordSet_keys]
      split
      · exact h
      case isFalse hnotmem =>
        simp [List.nodup_append, h, hnotmem]

/-- C4: duplicate-property policy — `Map.set` keeps an existing key at its first
occurrence's position and overwrites its value (appending only fresh keys), every
parsed style map has duplicate-free keys, and parsing `"a:1;b:2;a:3"` yields exactly
the two entries `a -> "3"` and `b -> "2"` in iteration order `[a, b]`. -/
theorem duplicate_property_policy :
    (∀ (m : StyleMap) (k v : String),
        ((recordSet m k v).map Prod.fst =
          if k ∈ m.map Prod.fst then m.map Prod.fst else m.map Prod.fst ++ [k]) ∧
        alookup (recordSet m k v) k = some v) ∧
    (∀ node : Element, ((getInlineStyles node).map Prod.fst).Nodup) ∧
    getInlineStyles elC4 = [("a", "3"), ("b", "2")] := by
  refine ⟨fun m k v => ⟨recordSet_keys m k v, alookup_recordSet_self m k v⟩, fun node => ?_, by decide⟩
  rw [getInlineStyles_eq]
  split
  · simp
  · exact parseStyleList_keys_nodup _

/-! ### The style round trip (C2) -/

/-- C2 counterexample: the claim fails as stated.  The map `{a -> " x"}` is built by a
single documented set operation and its value contains no semicolon at all, yet writing
it to a node with `setInlineStyles` and reading it back with `getInlineStyles` trims the
value and returns `{a -> "x"}`, a different map. -/
theorem style_roundtrip_cex :
    recordSet [] "a" " x" = [("a", " x")] ∧
    getInlineStyles (setInlineStyles ⟨"span", [], []⟩ (recordSet [] "a" " x"))
      ≠ recordSet [] "a" " x" := by
  constructor
  · decide
  · decide

theorem dropWhile_length_le (p : Char → Bool) (l : List Char) :
    (l.dropWhile p).length ≤ l.length :=
  (List.dropWhile_suffix p).sublist.length_le

theorem dropWhile_length_eq (p : Char → Bool) (l : List Char)
    (h : (l.dropWhile p).length = l.length) : l.dropWhile p = l := by
  induction l with
  | nil => rfl
  | cons a t ih =>
    rw [List.dropWhile_cons] at h ⊢
    cases hp : p a with
    | false => simp [hp]
    | true =>
      exfalso
      rw [hp] at h
      simp only [if_true] at h
      have := dropWhile_length_le p t
      simp at h
      omega

theorem trimChars_eq_self_facts (l : List Char) (h : trimChars l = l) :
    l.dropWhile jsWs = l ∧ l.reverse.dropWhile jsWs = l.reverse := by
  have hlen := congrArg List.length h
  unfold trimChars at hlen
  rw [List.length_reverse] at hlen
  have h1le := dropWhile_length_le jsWs l
  have h2le := dropWhile_length_le jsWs (l.dropWhile jsWs).reverse
  have h2r : ((l.dropWhile jsWs).reverse).length = (l.dropWhile jsWs).length :=
    List.length_reverse _
  have h1 : l.dropWhile jsWs = l := dropWhile_length_eq _ _ (by omega)
  refine ⟨h1, ?_⟩
  apply dropWhile_length_eq
  rw [h1] at hlen
  rw [List.length_reverse]
  exact hlen

theorem dropWhile_eq_self_head (p : Char → Bool) (l : List Char)
    (hl : l.dropWhile p = l) : ∀ c, l.head? = some c → p c = false := by
  intro c hc
  cases l with
  | nil => cases hc
  | cons a t =>
    have hac : a = c := by injection hc
    subst hac
    rw [List.dropWhile_cons] at hl
    cases hp : p a with
    | false => rfl
    | true =>
      exfalso
      rw [hp] at hl
      simp only [if_true] at hl
      have hle := dropWhile_length_le p t
      have := congrArg List.length hl
      simp at this
      omega

theorem trimChars_eq_self (l : List Char)
    (hhead : ∀ c, l.head? = some c → jsWs c = false)
    (hlast : ∀ c, l.getLast? = some c → jsWs c = false) :
    trimChars l = l := by
  unfold trimChars
  have h1 : l.dropWhile jsWs = l := by
    cases l with
    | nil => rfl
    | cons c t =>
      rw [List.dropWhile_cons, hhead c rfl]
      simp
  rw [h1]
  have h2 : l.reverse.dropWhile jsWs = l.reverse := by
    cases hr : l.reverse with
    | nil => rfl
    | cons d r =>
      rw [List.dropWhile_cons]
      have hd : l.getLast? = some d := by
        rw [← List.head?_reverse, hr]
        rfl
      rw [hlast d hd]
      simp
  rw [h2, List.reverse_reverse]

theorem splitTopAux_cons_plain (c : Char) (t acc : List Char) (hc : splitPlain c) :
    splitTopAux (c :: t) acc 0 none = splitTopAux t (c :: acc) 0 none := by
  obtain ⟨h1, h2, h3, h4, h5⟩ := hc
  simp only [splitTopAux]
  rw [if_neg (not_or.mpr ⟨h2, h3⟩), if_neg h4, if_neg h5,
    if_neg (fun hand => h1 hand.1)]

theorem splitTopAux_append_plain (l : List Char) (rest acc : List Char)
    (hl : ∀ c ∈ l, splitPlain c) :
    splitTopAux (l ++ rest) acc 0 none = splitTopAux rest (l.reverse ++ acc) 0 none := by
  induction l generalizing acc with
  | nil => simp
  | cons c t ih =>
    rw [List.cons_append, splitTopAux_cons_plain c _ _ (hl c (by simp)),
      ih _ (fun d hd => hl d (by simp [hd]))]
    congr 1
    simp

theorem splitTopAux_semi (rest acc : List Char) :
    splitTopAux (';' :: rest) acc 0 none = acc.reverse :: splitTopAux rest [] 0 none := by
  simp only [splitTopAux]
  rw [if_neg (by decide), if_neg (by decide), if_neg (by decide), if_pos (by simp)]

theorem splitTopSemis_joinSemis (ds : List (List Char)) (hne : ds ≠ [])
    (hplain : ∀ d ∈ ds, ∀ c ∈ d, splitPlain c) :
    splitTopSemis (joinSemis ds) = ds := by
  induction ds with
  | nil => cases hne rfl
  | cons d ds ih =>
    cases ds with
    | nil =>
      show splitTopAux (joinSemis [d]) [] 0 none = [d]
      have hj : joinSemis [d] = d ++ [] := by simp [joinSemis]
      rw [hj, splitTopAux_append_plain d [] [] (hplain d (by simp))]
      simp [splitTopAux]
    | cons d2 ds2 =>
      have hj : joinSemis (d :: d2 :: ds2) = d ++ ';' :: joinSemis (d2 :: ds2) := rfl
      show splitTopAux (joinSemis (d :: d2 :: ds2)) [] 0 none = d :: d2 :: ds2
      rw [hj, splitTopAux_append_plain d _ [] (hplain d (by simp)), splitTopAux_semi]
      simp only [List.append_nil, List.reverse_reverse]
      rw [show splitTopAux (joinSemis (d2 :: ds2)) [] 0 none
          = splitTopSemis (joinSemis (d2 :: ds2)) from rfl]
      rw [ih (by simp) (fun e he c hc => hplain e (by simp [he]) c hc)]

theorem String_data_ne_nil (p : String) (hp : p ≠ "") : p.data ≠ [] := by
  intro hc
  apply hp
  cases p with
  | mk l =>
    simp only at hc
    rw [hc]

theorem splitColon_append (l r : List Char) (hl : ∀ c ∈ l, c ≠ ':') :
    (l ++ ':' :: r).takeWhile (fun c => c != ':') = l ∧
    (l ++ ':' :: r).dropWhile (fun c => c != ':') = ':' :: r := by
  induction l with
  | nil =>
    constructor
    · rw [List.nil_append, List.takeWhile_cons]
      simp
    · rw [List.nil_append, List.dropWhile_cons]
      simp
  | cons c t ih =>
    have hc : (c != ':') = true := by
      simp [bne_iff_ne]
      exact hl c (by simp)
    obtain ⟨iht, ihd⟩ := ih (fun d hd => hl d (by simp [hd]))
    constructor
    · rw [List.cons_append, List.takeWhile_cons, hc]
      simp only [if_true]
      rw [iht]
    · rw [List.cons_append, List.dropWhile_cons, hc]
      simp only [if_true]
      rw [ihd]

theorem parseDecl_declChars (p v : String) (hp : p ≠ "")
    (hptrim : trimChars p.data = p.data) (hvtrim : trimChars v.data = v.data)
    (hpc : ∀ c ∈ p.data, c ≠ ':') :
    parseDecl (declChars (p, v)) = some (p, v) := by
  obtain ⟨htake, hdrop⟩ := splitColon_append p.data v.data hpc
  unfold parseDecl declChars
  simp only [htake, hdrop]
  rw [if_neg (by rw [hptrim]; exact String_data_ne_nil p hp)]
  rw [hptrim, hvtrim]

theorem foldl_parseStyleStep_decls (m : StyleMap) (acc : StyleMap)
    (hkeys : (m.map Prod.fst).Nodup)
    (hfresh : ∀ pv ∈ m, pv.1 ∉ acc.map Prod.fst)
    (hm : ∀ pv ∈ m, parseDecl (declChars pv) = some pv) :
    (m.map declChars).foldl parseStyleStep acc = acc ++ m := by
  induction m generalizing acc with
  | nil => simp
  | cons pv m ih =>
    obtain ⟨p, v⟩ := pv
    simp only [List.map_cons, List.foldl_cons]
    have hnot : ¬ (acc.any (fun qv => qv.1 == p) = true) := by
      intro hc
      obtain ⟨qv, hqv, hq⟩ := List.any_eq_true.mp hc
      exact (hfresh (p, v) (by simp))
        (List.mem_map.mpr ⟨qv, hqv, (beq_iff_eq.mp hq)⟩)
    have hstep : parseStyleStep acc (declChars (p, v)) = acc ++ [(p, v)] := by
      unfold parseStyleStep
      rw [hm (p, v) (by simp)]
      show recordSet acc p v = acc ++ [(p, v)]
      unfold recordSet
      rw [if_neg hnot]
    rw [hstep]
    have hkeys' : (m.map Prod.fst).Nodup := by
      simp only [List.map_cons, List.nodup_cons] at hkeys
      exact hkeys.2
    have hpnot : p ∉ m.map Prod.fst := by
      simp only [List.map_cons, List.nodup_cons] at hkeys
      exact hkeys.1
    have hfresh' : ∀ qv ∈ m, qv.1 ∉ (acc ++ [(p, v)]).map Prod.fst := by
      intro qv hqv
      rw [List.map_append, List.mem_append]
      rintro (hc | hc)
      · exact hfresh qv (by simp [hqv]) hc
      · simp only [List.map_cons, List.map_nil, List.mem_singleton] at hc
        exact hpnot (hc ▸ List.mem_map.mpr ⟨qv, hqv, rfl⟩)
    rw [ih (acc ++ [(p, v)]) hkeys' hfresh' (fun qv hqv => hm qv (by simp [hqv]))]
    simp

theorem joinSemis_head? (d : List Char) (ds : List (List Char)) (hd : d ≠ []) :
    (joinSemis (d :: ds)).head? = d.head? := by
  cases ds with
  | nil => rfl
  | cons d2 ds2 =>
    have hj : joinSemis (d :: d2 :: ds2) = d ++ ';' :: joinSemis (d2 :: ds2) := rfl
    rw [hj]
    cases d with
    | nil => cases hd rfl
    | cons c t => rfl

theorem joinSemis_ne_nil (d : List Char) (ds : List (List Char)) (hd : d ≠ []) :
    joinSemis (d :: ds) ≠ [] := by
  cases ds with
  | nil => simpa [joinSemis] using hd
  | cons d2 ds2 =>
    have hj : joinSemis (d :: d2 :: ds2) = d ++ ';' :: joinSemis (d2 :: ds2) := rfl
    rw [hj]
    simp

theorem joinSemis_getLast? (ds : List (List Char)) (hne : ds ≠ [])
    (hds : ∀ d ∈ ds, d ≠ []) :
    ∃ d, ds.getLast? = some d ∧ (joinSemis ds).getLast? = d.getLast? := by
  induction ds with
  | nil => cases hne rfl
  | cons d ds ih =>
    cases ds with
    | nil => exact ⟨d, rfl, by simp [joinSemis]⟩
    | cons d2 ds2 =>
      obtain ⟨e, he1, he2⟩ := ih (by simp) (fun x hx => hds x (by simp [hx]))
      refine ⟨e, ?_, ?_⟩
      · rw [List.getLast?_cons_cons]
        exact he1
      · have hj : joinSemis (d :: d2 :: ds2) = d ++ ';' :: joinSemis (d2 :: ds2) := rfl
        rw [hj, List.getLast?_append_of_ne_nil _ (by simp), ← he2]
        have h2 : joinSemis (d2 :: ds2) ≠ [] :=
          joinSemis_ne_nil d2 ds2 (hds d2 (by simp))
        cases hjj : joinSemis (d2 :: ds2) with
        | nil => cases h2 hjj
        | cons b u => rw [List.getLast?_cons_cons]

theorem declChars_ne_nil (pv : String × String) : declChars pv ≠ [] := by
  unfold declChars
  simp

theorem declChars_plain (pv : String × String) (h : RoundTripEntry pv) :
    ∀ c ∈ declChars pv, splitPlain c := by
  obtain ⟨_, _, _, hpc, hvc⟩ := h
  intro c hc
  unfold declChars at hc
  rw [List.mem_append] at hc
  rcases hc with hc | hc
  · exact (hpc c hc).2
  · rw [List.mem_cons] at hc
    rcases hc with hc | hc
    · subst hc
      decide
    · exact hvc c hc

/-- C2 (amended): the style round trip holds for every map whose keys are duplicate-free
and whose entries satisfy `RoundTripEntry` (trimmed, colon-free property names and trimmed
values, both free of unescaped semicolons, quotes and parentheses): serializing the map
onto a node with `setInlineStyles` and parsing it back with `getInlineStyles` returns an
equal map, property/value pairs and iteration order included. -/
theorem style_roundtrip (el : Element) (m : StyleMap)
    (hkeys : (m.map Prod.fst).Nodup)
    (hm : ∀ pv ∈ m, RoundTripEntry pv) :
    getInlineStyles (setInlineStyles el m) = m := by
  unfold setInlineStyles setProperty
  rw [getInlineStyles_eq]
  simp only
  rw [show alookup (recordSet el.properties "style" (String.mk (serializeChars m))) "style"
      = some (String.mk (serializeChars m)) from alookup_recordSet_self _ _ _]
  simp only [Option.getD_some]
  cases m with
  | nil => simp [serializeChars, joinSemis, trimChars]
  | cons pv m' =>
    set mm : StyleMap := pv :: m' with hmm
    -- the serialized string is already trimmed
    have hentry := hm pv (by simp [hmm])
    have hphead : ∀ c, pv.1.data.head? = some c → jsWs c = false := by
      have hfacts := trimChars_eq_self_facts pv.1.data hentry.2.1
      exact dropWhile_eq_self_head jsWs pv.1.data hfacts.1
    have htrim : trimChars (serializeChars mm) = serializeChars mm := by
      apply trimChars_eq_self
      · intro c hc
        have hne : pv.1.data ≠ [] := String_data_ne_nil pv.1 hentry.1
        have hh : (serializeChars mm).head? = (declChars pv).head? := by
          unfold serializeChars
          rw [hmm, List.map_cons]
          exact joinSemis_head? (declChars pv) (m'.map declChars) (declChars_ne_nil pv)
        rw [hh] at hc
        unfold declChars at hc
        cases hp : pv.1.data with
        | nil => cases hne hp
        | cons a t =>
          rw [hp] at hc
          simp only [List.cons_append, List.head?_cons, Option.some.injEq] at hc
          subst hc
          exact hphead a (by rw [hp]; rfl)
      · intro c hc
        obtain ⟨d, hd1, hd2⟩ := joinSemis_getLast? (mm.map declChars)
          (by simp [hmm]) (by
            intro x hx
            obtain ⟨qv, _, hqv⟩ := List.mem_map.mp hx
            rw [← hqv]
            exact declChars_ne_nil qv)
        rw [show serializeChars mm = joinSemis (mm.map declChars) from rfl, hd2] at hc
        have hdm : d ∈ List.map declChars mm := by
          obtain ⟨hne', heq⟩ := List.mem_getLast?_eq_getLast (Option.mem_def.mpr hd1)
          rw [heq]
          exact List.getLast_mem hne'
        obtain ⟨qv, hqv1, hqv2⟩ := List.mem_map.mp hdm
        have hqentry := hm qv hqv1
        rw [← hqv2] at hc
        unfold declChars at hc
        cases hv : qv.2.data with
        | nil =>
          rw [hv] at hc
          rw [List.getLast?_append_of_ne_nil _ (by simp)] at hc
          simp only [List.getLast?_singleton, Option.some.injEq] at hc
          subst hc
          decide
        | cons b u =>
          rw [hv] at hc
          rw [List.getLast?_append_of_ne_nil _ (by simp)] at hc
          have hfacts := trimChars_eq_self_facts qv.2.data hqentry.2.2.1
          have hqlast := dropWhile_eq_self_head jsWs qv.2.data.reverse hfacts.2
          rw [List.head?_reverse] at hqlast
          apply hqlast
          rw [hv]
          rw [show (':' :: b :: u).getLast? = (b :: u).getLast? from rfl] at hc
          exact hc
    rw [htrim]
    rw [if_neg (by
      intro hcontra
      have := congrArg String.data hcontra
      simp only at this
      exact joinSemis_ne_nil (declChars pv) (m'.map declChars) (declChars_ne_nil pv)
        (by simpa [serializeChars, hmm] using this))]
    unfold parseStyle
    rw [show (String.mk (serializeChars mm)).data = serializeChars mm from rfl]
    rw [show serializeChars mm = joinSemis (mm.map declChars) from rfl]
    rw [splitTopSemis_joinSemis (mm.map declChars) (by simp [hmm]) (by
      intro d hd c hc
      obtain ⟨qv, hqv1, hqv2⟩ := List.mem_map.mp hd
      rw [← hqv2] at hc
      exact declChars_plain qv (hm qv hqv1) c hc)]
    unfold parseStyleList
    rw [foldl_parseStyleStep_decls mm [] hkeys (by simp) (by
      intro qv hqv
      have hq := hm qv hqv
      exact parseDecl_declChars qv.1 qv.2 hq.1 hq.2.1 hq.2.2.1
        (fun c hc => (hq.2.2.2.1 c hc).1))]
    simp

theorem style_roundtrip_witness :
    getInlineStyles (setInlineStyles ⟨"span", [], []⟩
        [("color", "red"), ("margin", "0 auto")])
      = [("color", "red"), ("margin", "0 auto")] :=
  style_roundtrip ⟨"span", [], []⟩ [("color", "red"), ("margin", "0 auto")]
    (by decide) (by decide)

/-! ### The markdown pipeline claims (C5, C6, C8) -/

theorem flatten_map_singleton {α β : Type} (l : List α) (f : α → β) :
    (l.map (fun a => [f a])).flatten = l.map f := by
  induction l with
  | nil => rfl
  | cons a t ih => simp only [List.map_cons, List.flatten_cons, List.singleton_append, ih]

/-- C5: paragraph mode — with `paragraphs = true`, `fromInlineMarkdown` splits the
line-break-normalized input on runs of two or more newlines, collapses each chunk's
internal newline runs to spaces, tokenizes and parses each chunk independently, wraps
each chunk's nodes in one paragraph element, and the root's children are exactly the
ordered list of these paragraph elements; in particular `"a\n\nb"` yields two paragraph
elements whose single text children are `"a"` and `"b"`. -/
theorem fromInlineMarkdown_paragraph_mode :
    (∀ (md : String) (al : Bool),
        (fromInlineMarkdown md ⟨al, true⟩).children
          = (splitParagraphs (normalizeLineBreaks md)).map
              (fun part => HastNode.element "p" []
                (inlineMarkdownTokensToHast
                  (tokenizeInlineMarkdown (collapseNewlines part)) al).children)) ∧
    (fromInlineMarkdown "a\n\nb" ⟨true, true⟩).children
      = [HastNode.element "p" [] [HastNode.text "a"],
         HastNode.element "p" [] [HastNode.text "b"]] := by
  constructor
  · intro md al
    rw [show (fromInlineMarkdown md ⟨al, true⟩).children
        = ((splitParagraphs (normalizeLineBreaks md)).map (fun part =>
            [HastNode.element "p" []
              (inlineMarkdownTokensToHast
                (tokenizeInlineMarkdown (collapseNewlines part)) al).children])).flatten
        from rfl]
    exact flatten_map_singleton _ _
  · rfl

theorem flat_children (md : String) (al : Bool) :
    (fromInlineMarkdown md ⟨al, false⟩).children
      = (inlineMarkdownTokensToHast
          (tokenizeInlineMarkdown (collapseNewlines (normalizeLineBreaks md)))
          al).children := by
  rw [show (fromInlineMarkdown md ⟨al, false⟩).children
      = (inlineMarkdownTokensToHast
          (tokenizeInlineMarkdown (collapseNewlines (normalizeLineBreaks md)))
          al).children ++ [] from rfl]
  exact List.append_nil _

theorem noPara_appendNode (l : List HastNode) (n : HastNode)
    (hl : NoPara l) (hn : isParagraph n = false) : NoPara (appendNode l n) := by
  induction l with
  | nil =>
    intro x hx
    rw [show appendNode [] n = [n] from rfl, List.mem_singleton] at hx
    exact hx ▸ hn
  | cons a rest ih =>
    cases rest with
    | nil =>
      intro x hx
      cases a with
      | text s =>
        cases n with
        | text s2 =>
          rw [show appendNode [HastNode.text s] (HastNode.text s2)
              = [HastNode.text (s ++ s2)] from rfl, List.mem_singleton] at hx
          subst hx
          rfl
        | element t2 ps cs =>
          rw [show appendNode [HastNode.text s] (HastNode.element t2 ps cs)
              = [HastNode.text s, HastNode.element t2 ps cs] from rfl] at hx
          rcases List.mem_cons.mp hx with hx | hx
          · exact hx ▸ rfl
          · rw [List.mem_singleton] at hx
            exact hx ▸ hn
      | element t2 ps cs =>
        rw [show appendNode [HastNode.element t2 ps cs] n
            = [HastNode.element t2 ps cs, n] from rfl] at hx
        rcases List.mem_cons.mp hx with hx | hx
        · exact hx ▸ hl (HastNode.element t2 ps cs) (by simp)
        · rw [List.mem_singleton] at hx
          exact hx ▸ hn
    | cons b rest2 =>
      intro x hx
      rw [show appendNode (a :: b :: rest2) n = a :: appendNode (b :: rest2) n
          from rfl] at hx
      rcases List.mem_cons.mp hx with hx | hx
      · exact hx ▸ hl a (by simp)
      · exact ih (fun y hy => hl y (by simp [hy])) x hx

theorem noPara_appendNodes (l ns : List HastNode)
    (hl : NoPara l) (hns : NoPara ns) : NoPara (appendNodes l ns) := by
  induction ns generalizing l with
  | nil => exact hl
  | cons n ns ih =>
    exact ih (appendNode l n) (noPara_appendNode l n hl (hns n (by simp)))
      (fun y hy => hns y (by simp [hy]))

theorem stateNoPara_pushNode (st : PState) (n : HastNode)
    (h : StateNoPara st) (hn : isParagraph n = false) : StateNoPara (pushNode st n) := by
  obtain ⟨root, stack⟩ := st
  obtain ⟨hroot, hstack⟩ := h
  cases stack with
  | nil =>
    refine ⟨noPara_appendNode _ _ hroot hn, ?_⟩
    intro f hf
    cases hf
  | cons f fs =>
    refine ⟨hroot, ?_⟩
    intro g hg
    rcases List.mem_cons.mp hg with hg | hg
    · subst hg
      exact noPara_appendNode _ _ (hstack f (by simp)) hn
    · exact hstack g (by simp [hg])

theorem stateNoPara_foldl_pushNode (ns : List HastNode) (st : PState)
    (h : StateNoPara st) (hns : NoPara ns) : StateNoPara (ns.foldl pushNode st) := by
  induction ns generalizing st with
  | nil => exact h
  | cons n ns ih =>
    exact ih _ (stateNoPara_pushNode st n h (hns n (by simp)))
      (fun y hy => hns y (by simp [hy]))

theorem noPara_textIfNonempty (l : List Char) : NoPara (textIfNonempty l) := by
  unfold textIfNonempty
  split
  · intro x hx
    cases hx
  · intro x hx
    rw [List.mem_singleton] at hx
    subst hx
    rfl

theorem noPara_autoFuel (fuel : Nat) (acc l : List Char) :
    NoPara (autoFuel fuel acc l) := by
  induction fuel generalizing acc l with
  | zero => exact noPara_textIfNonempty _
  | succ fuel ih =>
    cases l with
    | nil => exact noPara_textIfNonempty _
    | cons c rest =>
      simp only [autoFuel]
      split
      · intro x hx
        rcases List.mem_append.mp hx with hx | hx
        · exact noPara_textIfNonempty _ x hx
        · rcases List.mem_cons.mp hx with hx | hx
          · subst hx
            rfl
          · exact ih _ _ x hx
      · exact ih _ _

theorem noPara_closeLoop (w : Bool) (carry : List HastNode) (stack : List Frame)
    (hc : NoPara carry) (hs : ∀ f ∈ stack, NoPara f.children) :
    NoPara (closeLoop w carry stack).1 ∧
      ∀ f ∈ (closeLoop w carry stack).2, NoPara f.children := by
  induction stack generalizing carry with
  | nil =>
    refine ⟨hc, ?_⟩
    intro f hf
    cases hf
  | cons f fs ih =>
    simp only [closeLoop]
    split
    · constructor
      · intro x hx
        rw [List.mem_singleton] at hx
        subst hx
        cases w <;> rfl
      · intro g hg
        exact hs g (by simp [hg])
    · exact ih _ (by
        intro x hx
        rcases List.mem_cons.mp hx with hx | hx
        · subst hx
          rfl
        · exact noPara_appendNodes _ _ (hs f (by simp)) hc x hx)
        (fun g hg => hs g (by simp [hg]))

theorem stateNoPara_stepToken (autolink : Bool) (resolveLink : String → List HastNode)
    (st : PState) (t : Token) (h : StateNoPara st) :
    StateNoPara (stepToken autolink resolveLink st t) := by
  cases t with
  | text s =>
    simp only [stepToken]
    split
    · exact stateNoPara_foldl_pushNode _ _ h (noPara_autoFuel _ _ _)
    · exact stateNoPara_pushNode _ _ h rfl
  | escaped c => exact stateNoPara_pushNode _ _ h rfl
  | code content => exact stateNoPara_pushNode _ _ h rfl
  | link label url => exact stateNoPara_pushNode _ _ h rfl
  | emph w raw =>
    simp only [stepToken, stepEmph]
    split
    · obtain ⟨h1, h2⟩ := noPara_closeLoop w [] st.stack (by intro x hx; cases hx) h.2
      exact stateNoPara_foldl_pushNode _ _ ⟨h.1, h2⟩ h1
    · refine ⟨h.1, ?_⟩
      intro f hf
      rcases List.mem_cons.mp hf with hf | hf
      · subst hf
        intro x hx
        cases hx
      · exact h.2 f hf

theorem noPara_finalizeLoop (carry : List HastNode) (stack : List Frame)
    (hc : NoPara carry) (hs : ∀ f ∈ stack, NoPara f.children) :
    NoPara (finalizeLoop carry stack) := by
  induction stack generalizing carry with
  | nil => exact hc
  | cons f fs ih =>
    exact ih _ (by
        intro x hx
        rcases List.mem_cons.mp hx with hx | hx
        · subst hx
          rfl
        · exact noPara_appendNodes _ _ (hs f (by simp)) hc x hx)
      (fun g hg => hs g (by simp [hg]))

theorem noPara_parseTokensWith (autolink : Bool) (resolveLink : String → List HastNode)
    (ts : List Token) : NoPara (parseTokensWith autolink resolveLink ts) := by
  have hst : ∀ st : PState, StateNoPara st →
      StateNoPara (ts.foldl (stepToken autolink resolveLink) st) := by
    induction ts with
    | nil => intro st h; exact h
    | cons t ts ih =>
      intro st h
      exact ih _ (stateNoPara_stepToken _ _ _ _ h)
  have hinit : StateNoPara ⟨[], []⟩ := by
    constructor
    · intro x hx
      cases hx
    · intro f hf
      cases hf
  have hfin := hst _ hinit
  exact noPara_appendNodes _ _ hfin.1
    (noPara_finalizeLoop [] _ (by intro x hx; cases hx) hfin.2)

/-- C6: non-paragraph mode — with `paragraphs = false` (the default) the whole
line-break-normalized input has its newline runs collapsed into single spaces and is
parsed as one unit; the root child list is exactly that flat parse result and contains
no paragraph wrapper element; in particular `"a\n\nb"` yields the single text node
`"a b"`. -/
theorem fromInlineMarkdown_flat_mode :
    (∀ (md : String) (al : Bool),
        (fromInlineMarkdown md ⟨al, false⟩).children
          = (inlineMarkdownTokensToHast
              (tokenizeInlineMarkdown (collapseNewlines (normalizeLineBreaks md)))
              al).children) ∧
    (∀ (md : String) (al : Bool) (n : HastNode),
        n ∈ (fromInlineMarkdown md ⟨al, false⟩).children → isParagraph n = false) ∧
    (fromInlineMarkdown "a\n\nb" {}).children = [HastNode.text "a b"] := by
  refine ⟨flat_children, ?_, rfl⟩
  intro md al n hn
  rw [flat_children md al] at hn
  exact noPara_parseTokensWith al (parseLinkLabel al) _ n hn

theorem fromInlineMarkdown_flat_mode_witness :
    isParagraph (HastNode.text "a b") = false :=
  fromInlineMarkdown_flat_mode.2.1 "a\n\nb" true (HastNode.text "a b") (List.Mem.head _)

theorem normFuel_no_newline (fuel : Nat) (l : List Char) (h : '\n' ∉ l) :
    normFuel fuel l = l := by
  induction fuel generalizing l with
  | zero => rfl
  | succ fuel ih =>
    cases l with
    | nil => rfl
    | cons c rest =>
      have hnt : '\n' ∉ (c :: rest).dropWhile isHws := fun hc =>
        h ((List.dropWhile_suffix isHws).sublist.subset hc)
      simp only [normFuel]
      rw [if_neg (fun hc : ((c :: rest).dropWhile isHws).take 2 = ['\r', '\n'] =>
        hnt (List.take_subset 2 _ (by rw [hc]; simp)))]
      rw [if_neg (fun hc : ((c :: rest).dropWhile isHws).take 1 = ['\n'] =>
        hnt (List.take_subset 1 _ (by rw [hc]; simp)))]
      rw [ih rest (fun hc => h (by simp [hc]))]

theorem collapseFuel_no_newline (fuel : Nat) (l : List Char) (h : '\n' ∉ l) :
    collapseFuel fuel l = l := by
  induction fuel generalizing l with
  | zero => rfl
  | succ fuel ih =>
    cases l with
    | nil => rfl
    | cons c rest =>
      simp only [collapseFuel]
      rw [if_neg (fun hc : c = '\n' => h (by rw [← hc]; exact List.mem_cons_self c rest))]
      rw [ih rest (fun hc => h (by simp [hc]))]

theorem startsWithChars_mem (p l : List Char) (h : startsWithChars p l = true) :
    ∀ c ∈ p, c ∈ l := by
  induction p generalizing l with
  | nil =>
    intro c hc
    cases hc
  | cons a p ih =>
    cases l with
    | nil =>
      simp only [startsWithChars] at h
      exact (Bool.false_ne_true h).elim
    | cons b l =>
      simp only [startsWithChars, Bool.and_eq_true, beq_iff_eq] at h
      intro c hc
      rcases List.mem_cons.mp hc with hc | hc
      · subst hc
        rw [h.1]
        exact List.mem_cons_self b l
      · exact List.mem_cons_of_mem b (ih l h.2 c hc)

theorem httpAt_false_of_no_colon (l : List Char) (h : ':' ∉ l) : httpAt l = false := by
  cases hb : httpAt l with
  | false => rfl
  | true =>
    exfalso
    unfold httpAt at hb
    simp only [Bool.or_eq_true] at hb
    rcases hb with h1 | h1
    · exact h (startsWithChars_mem _ _ h1 ':' (by decide))
    · exact h (startsWithChars_mem _ _ h1 ':' (by decide))

theorem autoFuel_no_colon (fuel : Nat) (acc l : List Char) (h : ':' ∉ l) :
    autoFuel fuel acc l = textIfNonempty (acc.reverse ++ l) := by
  induction fuel generalizing acc l with
  | zero => rfl
  | succ fuel ih =>
    cases l with
    | nil =>
      simp [autoFuel]
    | cons c rest =>
      simp only [autoFuel]
      rw [if_neg (by rw [httpAt_false_of_no_colon _ h]; exact Bool.false_ne_true)]
      rw [ih (c :: acc) rest (fun hc => h (by simp [hc]))]
      congr 1
      simp

theorem autolinkText_no_colon (s : String) (h : ':' ∉ s.data) :
    autolinkText s = textIfNonempty s.data := by
  unfold autolinkText
  rw [autoFuel_no_colon _ _ _ h]
  rfl

theorem tokFuel_plain (l : List Char) : ∀ (fuel : Nat) (acc : List Char),
    l.length ≤ fuel → (∀ c ∈ l, PlainChar c) →
    tokFuel fuel true l acc = withText (l.reverse ++ acc) [] := by
  induction l with
  | nil =>
    intro fuel acc _ _
    cases fuel with
    | zero => rfl
    | succ fuel => rfl
  | cons c rest ih =>
    intro fuel acc hfuel hl
    obtain ⟨h1, h2, h3, h4, h5, _, _, _⟩ := hl c (by simp)
    cases fuel with
    | zero =>
      simp only [List.length_cons] at hfuel
      omega
    | succ fuel =>
      simp only [tokFuel]
      rw [if_neg h5]
      rw [if_neg (fun hor => hor.elim h1 h2)]
      rw [if_neg h3]
      rw [if_neg (fun hand => h4 hand.1)]
      rw [ih fuel (c :: acc) (by simp only [List.length_cons] at hfuel; omega)
        (fun d hd => hl d (by simp [hd]))]
      congr 1
      simp

/-! ### String and append helpers for the unmatched-marker development -/

theorem String_eq_of_data (a b : String) (h : a.data = b.data) : a = b := by
  cases a with
  | mk l1 =>
    cases b with
    | mk l2 => exact congrArg String.mk h

theorem String_data_append (a b : String) : (a ++ b).data = a.data ++ b.data := rfl

theorem String_data_mk (u : List Char) : (String.mk u).data = u := rfl

theorem String_append_empty (a : String) : a ++ String.mk [] = a := by
  cases a with
  | mk l =>
    show String.mk (l ++ []) = String.mk l
    rw [List.append_nil]

theorem no_newline_plain (s : String) (h : ∀ c ∈ s.data, PlainChar c) : '\n' ∉ s.data :=
  fun hc => (h '\n' hc).2.2.2.2.2.1 rfl

theorem no_colon_plain (s : String) (h : ∀ c ∈ s.data, PlainChar c) : ':' ∉ s.data :=
  fun hc => (h ':' hc).2.2.2.2.2.2.2 rfl

theorem no_newline_marker (m : Char) (hm : m = '*' ∨ m = '_') (w : Bool) :
    '\n' ∉ (markerChars m w).data := by
  rcases hm with rfl | rfl <;> cases w <;> decide

theorem no_newline_append (a b : String) (ha : '\n' ∉ a.data) (hb : '\n' ∉ b.data) :
    '\n' ∉ (a ++ b).data := by
  rw [String_data_append]
  intro hc
  rcases List.mem_append.mp hc with hc | hc
  · exact ha hc
  · exact hb hc

/-! ### Tokenizer composition lemmas -/

theorem tokFuel_plain_run (l : List Char) : ∀ (fuel : Nat) (acc rest : List Char),
    l.length ≤ fuel → (∀ c ∈ l, PlainChar c) →
    tokFuel fuel true (l ++ rest) acc
      = tokFuel (fuel - l.length) true rest (l.reverse ++ acc) := by
  induction l with
  | nil =>
    intro fuel acc rest _ _
    simp
  | cons c t ih =>
    intro fuel acc rest hfuel hl
    obtain ⟨h1, h2, h3, h4, h5, _, _, _⟩ := hl c (by simp)
    cases fuel with
    | zero =>
      simp only [List.length_cons] at hfuel
      omega
    | succ fuel =>
      rw [show ((c :: t) ++ rest) = c :: (t ++ rest) from rfl]
      simp only [tokFuel]
      rw [if_neg h5, if_neg (fun hor => hor.elim h1 h2), if_neg h3,
        if_neg (fun hand => h4 hand.1)]
      rw [ih fuel (c :: acc) rest (by simp only [List.length_cons] at hfuel; omega)
        (fun d hd => hl d (by simp [hd]))]
      rw [show fuel + 1 - (c :: t).length = fuel - t.length from by
        simp only [List.length_cons]; omega]
      congr 1
      simp

theorem tokFuel_single_acc (m : Char) (hm : m = '*' ∨ m = '_') (fuel : Nat)
    (l acc : List Char) (hl : l.head? ≠ some m) :
    tokFuel (fuel + 1) true (m :: l) acc =
      withText acc (Token.emph false (String.mk [m]) :: tokFuel fuel true l []) := by
  have hmb : ¬(m = '\\') := by rcases hm with rfl | rfl <;> decide
  simp only [tokFuel]
  rw [if_neg hmb, if_pos hm, if_neg hl]

theorem tokFuel_double_acc (m : Char) (hm : m = '*' ∨ m = '_') (fuel : Nat)
    (l acc : List Char) :
    tokFuel (fuel + 1) true (m :: m :: l) acc =
      withText acc (Token.emph true (String.mk [m, m]) :: tokFuel fuel true l []) := by
  have hmb : ¬(m = '\\') := by rcases hm with rfl | rfl <;> decide
  simp only [tokFuel]
  rw [if_neg hmb, if_pos hm, if_pos (show (m :: l).head? = some m from rfl)]
  rfl

theorem markerChars_false_append (m : Char) (r : List Char) :
    (markerChars m false).data ++ r = m :: r := rfl

theorem markerChars_true_append (m : Char) (r : List Char) :
    (markerChars m true).data ++ r = m :: m :: r := rfl

theorem markerChars_data_head (m : Char) (w : Bool) (r : List Char) :
    ((markerChars m w).data ++ r).head? = some m := by
  cases w <;> rfl

/-- The head of a plain run followed by anything that does not start with the marker is
not the marker. -/
theorem head?_plain_append_ne (u r : List Char) (m : Char) (hm : m = '*' ∨ m = '_')
    (hu : ∀ c ∈ u, PlainChar c) (hr : u = [] → r.head? ≠ some m) :
    (u ++ r).head? ≠ some m := by
  cases u with
  | nil => simpa using hr rfl
  | cons d t =>
    simp only [List.cons_append, List.head?_cons, ne_eq, Option.some.injEq]
    intro hc
    have hd := hu d (by simp)
    rcases hm with rfl | rfl
    · exact hd.1 hc
    · exact hd.2.1 hc

theorem head?_plain_ne (u : List Char) (m : Char) (hm : m = '*' ∨ m = '_')
    (hu : ∀ c ∈ u, PlainChar c) : u.head? ≠ some m := by
  cases u with
  | nil => simp
  | cons d t =>
    simp only [List.head?_cons, ne_eq, Option.some.injEq]
    intro hc
    have hd := hu d (by simp)
    rcases hm with rfl | rfl
    · exact hd.1 hc
    · exact hd.2.1 hc

/-- Consuming an all-plain run when the fuel is exactly the list length leaves an exact
fuel for the rest. -/
theorem tokFuel_plain_seg (l rest acc : List Char) (hl : ∀ c ∈ l, PlainChar c) :
    tokFuel (l ++ rest).length true (l ++ rest) acc
      = tokFuel rest.length true rest (l.reverse ++ acc) := by
  rw [tokFuel_plain_run l (l ++ rest).length acc rest
    (by simp only [List.length_append]; omega) hl]
  rw [show (l ++ rest).length - l.length = rest.length from by
    simp only [List.length_append]; omega]

/-- Tokenizing plain text around one emphasis marker yields text, the marker token, and
text. -/
theorem tokenize_one_marker (m : Char) (hm : m = '*' ∨ m = '_') (w : Bool) (s0 s1 : String)
    (h0 : ∀ c ∈ s0.data, PlainChar c) (h1 : ∀ c ∈ s1.data, PlainChar c) :
    tokenizeInlineMarkdown (s0 ++ markerChars m w ++ s1)
      = withText s0.data.reverse
          (Token.emph w (markerChars m w) :: withText s1.data.reverse []) := by
  unfold tokenizeInlineMarkdown
  rw [show (s0 ++ markerChars m w ++ s1).data
      = (s0.data ++ (markerChars m w).data) ++ s1.data from rfl]
  simp only [List.append_assoc]
  rw [tokFuel_plain_seg s0.data ((markerChars m w).data ++ s1.data) [] h0]
  rw [List.append_nil]
  cases w with
  | false =>
    rw [markerChars_false_append]
    rw [List.length_cons]
    rw [tokFuel_single_acc m hm s1.data.length s1.data s0.data.reverse
      (head?_plain_ne s1.data m hm h1)]
    rw [tokFuel_plain s1.data s1.data.length [] (le_refl _) h1]
    rw [List.append_nil]
    rfl
  | true =>
    rw [markerChars_true_append]
    rw [List.length_cons, List.length_cons]
    rw [tokFuel_double_acc m hm (s1.data.length + 1) s1.data s0.data.reverse]
    rw [tokFuel_plain s1.data (s1.data.length + 1) [] (Nat.le_succ _) h1]
    rw [List.append_nil]
    rfl

/-- Tokenizing plain text around two emphasis markers yields the alternating sequence of
text and marker tokens.  When the middle segment is empty, the two markers must not use
the same character, as the tokenizer would regroup a same-character run. -/
theorem tokenize_two_markers (m1 m2 : Char) (hm1 : m1 = '*' ∨ m1 = '_')
    (hm2 : m2 = '*' ∨ m2 = '_') (w1 w2 : Bool) (s0 s1 s2 : String)
    (h0 : ∀ c ∈ s0.data, PlainChar c) (h1 : ∀ c ∈ s1.data, PlainChar c)
    (h2 : ∀ c ∈ s2.data, PlainChar c) (hadj : s1 ≠ "" ∨ m1 ≠ m2) :
    tokenizeInlineMarkdown (s0 ++ markerChars m1 w1 ++ s1 ++ markerChars m2 w2 ++ s2)
      = withText s0.data.reverse
          (Token.emph w1 (markerChars m1 w1) :: withText s1.data.reverse
            (Token.emph w2 (markerChars m2 w2) :: withText s2.data.reverse [])) := by
  have hhead1 : (s1.data ++ ((markerChars m2 w2).data ++ s2.data)).head? ≠ some m1 := by
    refine head?_plain_append_ne s1.data _ m1 hm1 h1 ?_
    intro hnil
    rw [markerChars_data_head]
    intro hc
    rcases hadj with hadj | hadj
    · exact hadj (String_eq_of_data s1 "" (by rw [hnil]))
    · exact hadj (Option.some.inj hc).symm
  unfold tokenizeInlineMarkdown
  rw [show (s0 ++ markerChars m1 w1 ++ s1 ++ markerChars m2 w2 ++ s2).data
      = (((s0.data ++ (markerChars m1 w1).data) ++ s1.data)
          ++ (markerChars m2 w2).data) ++ s2.data from rfl]
  simp only [List.append_assoc]
  rw [tokFuel_plain_seg s0.data
    ((markerChars m1 w1).data ++ (s1.data ++ ((markerChars m2 w2).data ++ s2.data)))
    [] h0]
  rw [List.append_nil]
  cases w1 with
  | false =>
    rw [markerChars_false_append]
    rw [List.length_cons]
    rw [tokFuel_single_acc m1 hm1 _ _ _ hhead1]
    rw [tokFuel_plain_seg s1.data ((markerChars m2 w2).data ++ s2.data) [] h1]
    rw [List.append_nil]
    cases w2 with
    | false =>
      rw [markerChars_false_append]
      rw [List.length_cons]
      rw [tokFuel_single_acc m2 hm2 s2.data.length s2.data s1.data.reverse
        (head?_plain_ne s2.data m2 hm2 h2)]
      rw [tokFuel_plain s2.data s2.data.length [] (le_refl _) h2]
      rw [List.append_nil]
      rfl
    | true =>
      rw [markerChars_true_append]
      rw [List.length_cons, List.length_cons]
      rw [tokFuel_double_acc m2 hm2 (s2.data.length + 1) s2.data s1.data.reverse]
      rw [tokFuel_plain s2.data (s2.data.length + 1) [] (Nat.le_succ _) h2]
      rw [List.append_nil]
      rfl
  | true =>
    rw [markerChars_true_append]
    rw [List.length_cons, List.length_cons]
    rw [tokFuel_double_acc m1 hm1
      ((s1.data ++ ((markerChars m2 w2).data ++ s2.data)).length + 1)
      (s1.data ++ ((markerChars m2 w2).data ++ s2.data)) s0.data.reverse]
    rw [tokFuel_plain_run s1.data
      ((s1.data ++ ((markerChars m2 w2).data ++ s2.data)).length + 1) []
      ((markerChars m2 w2).data ++ s2.data)
      (by simp only [List.length_append]; omega) h1]
    rw [List.append_nil]
    rw [show (s1.data ++ ((markerChars m2 w2).data ++ s2.data)).length + 1 - s1.data.length
        = ((markerChars m2 w2).data ++ s2.data).length + 1 from by
      simp only [List.length_append]; omega]
    cases w2 with
    | false =>
      rw [markerChars_false_append]
      rw [List.length_cons]
      rw [tokFuel_single_acc m2 hm2 (s2.data.length + 1) s2.data s1.data.reverse
        (head?_plain_ne s2.data m2 hm2 h2)]
      rw [tokFuel_plain s2.data (s2.data.length + 1) [] (Nat.le_succ _) h2]
      rw [List.append_nil]
      rfl
    | true =>
      rw [markerChars_true_append]
      rw [List.length_cons, List.length_cons]
      rw [tokFuel_double_acc m2 hm2 ((s2.data.length + 1) + 1) s2.data s1.data.reverse]
      rw [tokFuel_plain s2.data ((s2.data.length + 1) + 1) [] (by omega) h2]
      rw [List.append_nil]
      rfl

/-- Tokenizing plain text around three emphasis markers, the second and third of one
weight, yields the alternating sequence of text and marker tokens. -/
theorem tokenize_three_markers (m1 m2 m3 : Char) (hm1 : m1 = '*' ∨ m1 = '_')
    (hm2 : m2 = '*' ∨ m2 = '_') (hm3 : m3 = '*' ∨ m3 = '_') (w1 w2 : Bool)
    (s0 s1 s2 s3 : String)
    (h0 : ∀ c ∈ s0.data, PlainChar c) (h1 : ∀ c ∈ s1.data, PlainChar c)
    (h2 : ∀ c ∈ s2.data, PlainChar c) (h3 : ∀ c ∈ s3.data, PlainChar c)
    (hadj1 : s1 ≠ "" ∨ m1 ≠ m2) (hadj2 : s2 ≠ "" ∨ m2 ≠ m3) :
    tokenizeInlineMarkdown (s0 ++ markerChars m1 w1 ++ s1 ++ markerChars m2 w2 ++ s2
        ++ markerChars m3 w2 ++ s3)
      = withText s0.data.reverse
          (Token.emph w1 (markerChars m1 w1) :: withText s1.data.reverse
            (Token.emph w2 (markerChars m2 w2) :: withText s2.data.reverse
              (Token.emph w2 (markerChars m3 w2) :: withText s3.data.reverse []))) := by
  have hhead2 : (s2.data ++ ((markerChars m3 w2).data ++ s3.data)).head? ≠ some m2 := by
    refine head?_plain_append_ne s2.data _ m2 hm2 h2 ?_
    intro hnil
    rw [markerChars_data_head]
    intro hc
    rcases hadj2 with hadj2 | hadj2
    · exact hadj2 (String_eq_of_data s2 "" (by rw [hnil]))
    · exact hadj2 (Option.some.inj hc).symm
  have hhead1 : (s1.data ++ ((markerChars m2 w2).data
      ++ (s2.data ++ ((markerChars m3 w2).data ++ s3.data)))).head? ≠ some m1 := by
    refine head?_plain_append_ne s1.data _ m1 hm1 h1 ?_
    intro hnil
    rw [markerChars_data_head]
    intro hc
    rcases hadj1 with hadj1 | hadj1
    · exact hadj1 (String_eq_of_data s1 "" (by rw [hnil]))
    · exact hadj1 (Option.some.inj hc).symm
  unfold tokenizeInlineMarkdown
  rw [show (s0 ++ markerChars m1 w1 ++ s1 ++ markerChars m2 w2 ++ s2
        ++ markerChars m3 w2 ++ s3).data
      = (((((s0.data ++ (markerChars m1 w1).data) ++ s1.data)
          ++ (markerChars m2 w2).data) ++ s2.data)
          ++ (markerChars m3 w2).data) ++ s3.data from rfl]
  simp only [List.append_assoc]
  rw [tokFuel_plain_seg s0.data
    ((markerChars m1 w1).data ++ (s1.data ++ ((markerChars m2 w2).data
      ++ (s2.data ++ ((markerChars m3 w2).data ++ s3.data))))) [] h0]
  rw [List.append_nil]
  cases w1 with
  | false =>
    rw [markerChars_false_append]
    rw [List.length_cons]
    rw [tokFuel_single_acc m1 hm1 _ _ _ hhead1]
    rw [tokFuel_plain_seg s1.data
      ((markerChars m2 w2).data ++ (s2.data ++ ((markerChars m3 w2).data ++ s3.data)))
      [] h1]
    rw [List.append_nil]
    cases w2 with
    | false =>
      rw [markerChars_false_append]
      rw [List.length_cons]
      rw [tokFuel_single_acc m2 hm2 _ _ _ hhead2]
      rw [tokFuel_plain_seg s2.data ((markerChars m3 false).data ++ s3.data) [] h2]
      rw [List.append_nil]
      rw [markerChars_false_append]
      rw [List.length_cons]
      rw [tokFuel_single_acc m3 hm3 s3.data.length s3.data s2.data.reverse
        (head?_plain_ne s3.data m3 hm3 h3)]
      rw [tokFuel_plain s3.data s3.data.length [] (le_refl _) h3]
      rw [List.append_nil]
      rfl
    | true =>
      rw [markerChars_true_append]
      rw [List.length_cons, List.length_cons]
      rw [tokFuel_double_acc m2 hm2
        ((s2.data ++ ((markerChars m3 true).data ++ s3.data)).length + 1)
        (s2.data ++ ((markerChars m3 true).data ++ s3.data)) s1.data.reverse]
      rw [tokFuel_plain_run s2.data
        ((s2.data ++ ((markerChars m3 true).data ++ s3.data)).length + 1) []
        ((markerChars m3 true).data ++ s3.data)
        (by simp only [List.length_append]; omega) h2]
      rw [List.append_nil]
      rw [show (s2.data ++ ((markerChars m3 true).data ++ s3.data)).length + 1
            - s2.data.length
          = ((markerChars m3 true).data ++ s3.data).length + 1 from by
        simp only [List.length_append]; omega]
      rw [markerChars_true_append]
      rw [List.length_cons, List.length_cons]
      rw [tokFuel_double_acc m3 hm3 ((s3.data.length + 1) + 1) s3.data s2.data.reverse]
      rw [tokFuel_plain s3.data ((s3.data.length + 1) + 1) [] (by omega) h3]
      rw [List.append_nil]
      rfl
  | true =>
    rw [markerChars_true_append]
    rw [List.length_cons, List.length_cons]
    rw [tokFuel_double_acc m1 hm1
      ((s1.data ++ ((markerChars m2 w2).data
        ++ (s2.data ++ ((markerChars m3 w2).data ++ s3.data)))).length + 1)
      (s1.data ++ ((markerChars m2 w2).data
        ++ (s2.data ++ ((markerChars m3 w2).data ++ s3.data)))) s0.data.reverse]
    rw [tokFuel_plain_run s1.data
      ((s1.data ++ ((markerChars m2 w2).data
        ++ (s2.data ++ ((markerChars m3 w2).data ++ s3.data)))).length + 1) []
      ((markerChars m2 w2).data ++ (s2.data ++ ((markerChars m3 w2).data ++ s3.data)))
      (by simp only [List.length_append]; omega) h1]
    rw [List.append_nil]
    rw [show (s1.data ++ ((markerChars m2 w2).data
          ++ (s2.data ++ ((markerChars m3 w2).data ++ s3.data)))).length + 1
          - s1.data.length
        = ((markerChars m2 w2).data
            ++ (s2.data ++ ((markerChars m3 w2).data ++ s3.data))).length + 1 from by
      simp only [List.length_append]; omega]
    cases w2 with
    | false =>
      rw [markerChars_false_append]
      rw [List.length_cons]
      rw [tokFuel_single_acc m2 hm2
        ((s2.data ++ ((markerChars m3 false).data ++ s3.data)).length + 1)
        (s2.data ++ ((markerChars m3 false).data ++ s3.data)) s1.data.reverse hhead2]
      rw [tokFuel_plain_run s2.data
        ((s2.data ++ ((markerChars m3 false).data ++ s3.data)).length + 1) []
        ((markerChars m3 false).data ++ s3.data)
        (by simp only [List.length_append]; omega) h2]
      rw [List.append_nil]
      rw [show (s2.data ++ ((markerChars m3 false).data ++ s3.data)).length + 1
            - s2.data.length
          = ((markerChars m3 false).data ++ s3.data).length + 1 from by
        simp only [List.length_append]; omega]
      rw [markerChars_false_append]
      rw [List.length_cons]
      rw [tokFuel_single_acc m3 hm3 (s3.data.length + 1) s3.data s2.data.reverse
        (head?_plain_ne s3.data m3 hm3 h3)]
      rw [tokFuel_plain s3.data (s3.data.length + 1) [] (Nat.le_succ _) h3]
      rw [List.append_nil]
      rfl
    | true =>
      rw [markerChars_true_append]
      rw [List.length_cons, List.length_cons]
      rw [tokFuel_double_acc m2 hm2
        (((s2.data ++ ((markerChars m3 true).data ++ s3.data)).length + 1) + 1)
        (s2.data ++ ((markerChars m3 true).data ++ s3.data)) s1.data.reverse]
      rw [tokFuel_plain_run s2.data
        (((s2.data ++ ((markerChars m3 true).data ++ s3.data)).length + 1) + 1) []
        ((markerChars m3 true).data ++ s3.data)
        (by simp only [List.length_append]; omega) h2]
      rw [List.append_nil]
      rw [show ((s2.data ++ ((markerChars m3 true).data ++ s3.data)).length + 1) + 1
            - s2.data.length
          = (((markerChars m3 true).data ++ s3.data).length + 1) + 1 from by
        simp only [List.length_append]; omega]
      rw [markerChars_true_append]
      rw [List.length_cons, List.length_cons]
      rw [tokFuel_double_acc m3 hm3 (((s3.data.length + 1) + 1) + 1) s3.data
        s2.data.reverse]
      rw [tokFuel_plain s3.data (((s3.data.length + 1) + 1) + 1) [] (by omega) h3]
      rw [List.append_nil]
      rfl

/-! ### Parser-state lemmas for the unmatched-marker development -/

theorem appendNodes_nil_textIfNonempty (u : List Char) :
    appendNodes [] (textIfNonempty u) = textIfNonempty u := by
  cases u <;> rfl

theorem foldl_pushNode_textIfNonempty_nil (u : List Char) (root : List HastNode) :
    (textIfNonempty u).foldl pushNode ⟨root, []⟩
      = ⟨appendNodes root (textIfNonempty u), []⟩ := by
  cases u <;> rfl

theorem foldl_pushNode_TI_cons (u : List Char) (root : List HastNode) (w : Bool)
    (raw : String) (ch : List HastNode) (fs : List Frame) :
    (textIfNonempty u).foldl pushNode ⟨root, ⟨w, raw, ch⟩ :: fs⟩
      = ⟨root, ⟨w, raw, appendNodes ch (textIfNonempty u)⟩ :: fs⟩ := by
  cases u <;> rfl

/-- Feeding the parser a text token of colon-free characters appends the corresponding
text node (the autolink pass leaves it unchanged). -/
theorem foldl_withText_plain (rl : String → List HastNode) (u : List Char)
    (hc : ':' ∉ u) (ts : List Token) (st : PState) :
    List.foldl (stepToken true rl) st (withText u.reverse ts)
      = List.foldl (stepToken true rl) ((textIfNonempty u).foldl pushNode st) ts := by
  by_cases hu : u = []
  · subst hu
    rfl
  · rw [show withText u.reverse ts
        = Token.text (String.mk u.reverse.reverse) :: ts from by
      unfold withText
      rw [if_neg (by simp [hu])]]
    rw [List.reverse_reverse]
    rw [List.foldl_cons]
    rw [show stepToken true rl st (Token.text (String.mk u))
        = (autolinkText (String.mk u)).foldl pushNode st from rfl]
    rw [autolinkText_no_colon (String.mk u) hc]

/-- An emphasis marker whose weight differs from the single open frame opens a new
frame. -/
theorem stepEmph_open_one (w1 w2 : Bool) (hw : w1 ≠ w2) (k2 : String)
    (root : List HastNode) (f : Frame) (hf : f.double = w1) :
    stepEmph w2 k2 ⟨root, [f]⟩ = ⟨root, [⟨w2, k2, []⟩, f]⟩ := by
  have hcond : ¬((⟨root, [f]⟩ : PState).stack.any (fun g => g.double == w2) = true) := by
    show ¬(List.any [f] (fun g => g.double == w2) = true)
    simp only [List.any_cons, List.any_nil, Bool.or_false, beq_iff_eq, hf]
    exact fun hc => hw hc
  unfold stepEmph
  rw [if_neg hcond]

/-- An emphasis marker matching the weight of the top frame closes it into an element. -/
theorem stepEmph_close_top (w : Bool) (k raw : String) (ch : List HastNode)
    (root : List HastNode) (fs : List Frame) :
    stepEmph w raw ⟨root, ⟨w, k, ch⟩ :: fs⟩
      = pushNode ⟨root, fs⟩
          (HastNode.element (if w then "strong" else "em") [] ch) := by
  have hcond : (⟨root, (⟨w, k, ch⟩ : Frame) :: fs⟩ : PState).stack.any
      (fun g => g.double == w) = true := by
    show List.any ((⟨w, k, ch⟩ : Frame) :: fs) (fun g => g.double == w) = true
    simp
  unfold stepEmph
  rw [if_pos hcond]
  show (closeLoop w [] ((⟨w, k, ch⟩ : Frame) :: fs)).1.foldl pushNode
      ⟨root, (closeLoop w [] ((⟨w, k, ch⟩ : Frame) :: fs)).2⟩ = _
  rw [show closeLoop w [] ((⟨w, k, ch⟩ : Frame) :: fs)
      = ([HastNode.element (if w then "strong" else "em") [] (appendNodes ch [])], fs)
      from by
    simp only [closeLoop]
    rw [if_pos trivial]]
  show pushNode ⟨root, fs⟩
      (HastNode.element (if w then "strong" else "em") [] (appendNodes ch [])) = _
  rw [show appendNodes ch [] = ch from rfl]

/-! ### Text-merge calculus of appended nodes -/

theorem appendNodes_text_head (u : List Char) (r : String) (rest : List HastNode) :
    appendNodes (textIfNonempty u) (HastNode.text r :: rest)
      = appendNodes [HastNode.text (String.mk u ++ r)] rest := by
  cases u <;> rfl

theorem appendNodes_text_textIfNonempty (a : String) (u : List Char) :
    appendNodes [HastNode.text a] (textIfNonempty u)
      = [HastNode.text (a ++ String.mk u)] := by
  cases u with
  | nil =>
    rw [String_append_empty]
    rfl
  | cons c t => rfl

theorem appendNodes_text_text (a b : String) :
    appendNodes [HastNode.text a] [HastNode.text b] = [HastNode.text (a ++ b)] := rfl

theorem appendNode_textIfNonempty_element (u : List Char) (t : String)
    (ps : List (String × String)) (cs : List HastNode) :
    appendNode (textIfNonempty u) (HastNode.element t ps cs)
      = textIfNonempty u ++ [HastNode.element t ps cs] := by
  cases u <;> rfl

theorem appendNode_after_element (l : List HastNode) (t : String)
    (ps : List (String × String)) (cs : List HastNode) (n : HastNode) :
    appendNode (l ++ [HastNode.element t ps cs]) n
      = l ++ [HastNode.element t ps cs, n] := by
  induction l with
  | nil => rfl
  | cons a l ih =>
    show appendNode (a :: (l ++ [HastNode.element t ps cs])) n
        = a :: (l ++ [HastNode.element t ps cs, n])
    cases hre : l ++ [HastNode.element t ps cs] with
    | nil => exact absurd hre (by simp)
    | cons b rest =>
      rw [show appendNode (a :: b :: rest) n = a :: appendNode (b :: rest) n from rfl]
      rw [← hre, ih]

theorem appendNodes_elem_last_textIfNonempty (l : List HastNode) (t : String)
    (ps : List (String × String)) (cs : List HastNode) (u : List Char) :
    appendNodes (l ++ [HastNode.element t ps cs]) (textIfNonempty u)
      = l ++ (HastNode.element t ps cs :: textIfNonempty u) := by
  cases u with
  | nil => rfl
  | cons c tl =>
    rw [show appendNodes (l ++ [HastNode.element t ps cs]) (textIfNonempty (c :: tl))
        = appendNode (l ++ [HastNode.element t ps cs])
            (HastNode.text (String.mk (c :: tl))) from rfl]
    rw [appendNode_after_element]
    rfl

theorem appendNodes_append (l xs ys : List HastNode) :
    appendNodes l (xs ++ ys) = appendNodes (appendNodes l xs) ys := by
  unfold appendNodes
  rw [List.foldl_append]

theorem appendNodes_text_elem_cons (a t : String) (ps : List (String × String))
    (cs rest : List HastNode) :
    appendNodes [HastNode.text a] (HastNode.element t ps cs :: rest)
      = appendNodes [HastNode.text a, HastNode.element t ps cs] rest := rfl

theorem appendNodes_pair_elem (a : HastNode) (t : String)
    (ps : List (String × String)) (cs : List HastNode) (u : List Char) :
    appendNodes [a, HastNode.element t ps cs] (textIfNonempty u)
      = a :: HastNode.element t ps cs :: textIfNonempty u := by
  cases u <;> rfl

/-- Parsing text, one emphasis marker, text: the unmatched frame is flushed as its
literal marker characters, and everything merges into a single text node. -/
theorem parse_one_marker (w : Bool) (k : String) (s0 s1 : String)
    (hc0 : ':' ∉ s0.data) (hc1 : ':' ∉ s1.data) :
    (inlineMarkdownTokensToHast
        (withText s0.data.reverse
          (Token.emph w k :: withText s1.data.reverse [])) true).children
      = [HastNode.text (s0 ++ k ++ s1)] := by
  have hfold : List.foldl (stepToken true (parseLinkLabel true)) ⟨[], []⟩
      (withText s0.data.reverse (Token.emph w k :: withText s1.data.reverse []))
      = ⟨textIfNonempty s0.data, [⟨w, k, textIfNonempty s1.data⟩]⟩ := by
    rw [foldl_withText_plain _ s0.data hc0]
    rw [foldl_pushNode_textIfNonempty_nil, appendNodes_nil_textIfNonempty]
    rw [List.foldl_cons]
    rw [show stepToken true (parseLinkLabel true) ⟨textIfNonempty s0.data, []⟩
        (Token.emph w k) = (⟨textIfNonempty s0.data, [⟨w, k, []⟩]⟩ : PState) from rfl]
    rw [foldl_withText_plain _ s1.data hc1]
    rw [foldl_pushNode_TI_cons, appendNodes_nil_textIfNonempty]
    rw [List.foldl_nil]
  rw [show (inlineMarkdownTokensToHast
        (withText s0.data.reverse
          (Token.emph w k :: withText s1.data.reverse [])) true).children
      = appendNodes
          (List.foldl (stepToken true (parseLinkLabel true)) ⟨[], []⟩
            (withText s0.data.reverse
              (Token.emph w k :: withText s1.data.reverse []))).root
          (finalizeLoop []
            (List.foldl (stepToken true (parseLinkLabel true)) ⟨[], []⟩
              (withText s0.data.reverse
                (Token.emph w k :: withText s1.data.reverse []))).stack) from rfl]
  rw [hfold]
  show appendNodes (textIfNonempty s0.data)
      (HastNode.text k :: textIfNonempty s1.data) = [HastNode.text (s0 ++ k ++ s1)]
  rw [appendNodes_text_head]
  rw [appendNodes_text_textIfNonempty]

/-- Parsing text and two unmatched emphasis markers of distinct weights: both frames are
flushed as literal marker characters and everything merges into a single text node. -/
theorem parse_two_markers (w1 w2 : Bool) (hw : w1 ≠ w2) (k1 k2 : String)
    (s0 s1 s2 : String) (hc0 : ':' ∉ s0.data) (hc1 : ':' ∉ s1.data)
    (hc2 : ':' ∉ s2.data) :
    (inlineMarkdownTokensToHast
        (withText s0.data.reverse (Token.emph w1 k1 :: withText s1.data.reverse
          (Token.emph w2 k2 :: withText s2.data.reverse []))) true).children
      = [HastNode.text (s0 ++ k1 ++ s1 ++ k2 ++ s2)] := by
  have hfold : List.foldl (stepToken true (parseLinkLabel true)) ⟨[], []⟩
      (withText s0.data.reverse (Token.emph w1 k1 :: withText s1.data.reverse
        (Token.emph w2 k2 :: withText s2.data.reverse [])))
      = ⟨textIfNonempty s0.data,
          [⟨w2, k2, textIfNonempty s2.data⟩, ⟨w1, k1, textIfNonempty s1.data⟩]⟩ := by
    rw [foldl_withText_plain _ s0.data hc0]
    rw [foldl_pushNode_textIfNonempty_nil, appendNodes_nil_textIfNonempty]
    rw [List.foldl_cons]
    rw [show stepToken true (parseLinkLabel true) ⟨textIfNonempty s0.data, []⟩
        (Token.emph w1 k1) = (⟨textIfNonempty s0.data, [⟨w1, k1, []⟩]⟩ : PState)
        from rfl]
    rw [foldl_withText_plain _ s1.data hc1]
    rw [foldl_pushNode_TI_cons, appendNodes_nil_textIfNonempty]
    rw [List.foldl_cons]
    rw [show stepToken true (parseLinkLabel true)
        ⟨textIfNonempty s0.data, [⟨w1, k1, textIfNonempty s1.data⟩]⟩ (Token.emph w2 k2)
        = stepEmph w2 k2
            ⟨textIfNonempty s0.data, [⟨w1, k1, textIfNonempty s1.data⟩]⟩ from rfl]
    rw [stepEmph_open_one w1 w2 hw k2 (textIfNonempty s0.data)
      ⟨w1, k1, textIfNonempty s1.data⟩ rfl]
    rw [foldl_withText_plain _ s2.data hc2]
    rw [foldl_pushNode_TI_cons, appendNodes_nil_textIfNonempty]
    rw [List.foldl_nil]
  rw [show (inlineMarkdownTokensToHast
        (withText s0.data.reverse (Token.emph w1 k1 :: withText s1.data.reverse
          (Token.emph w2 k2 :: withText s2.data.reverse []))) true).children
      = appendNodes
          (List.foldl (stepToken true (parseLinkLabel true)) ⟨[], []⟩
            (withText s0.data.reverse (Token.emph w1 k1 :: withText s1.data.reverse
              (Token.emph w2 k2 :: withText s2.data.reverse [])))).root
          (finalizeLoop []
            (List.foldl (stepToken true (parseLinkLabel true)) ⟨[], []⟩
              (withText s0.data.reverse (Token.emph w1 k1 :: withText s1.data.reverse
                (Token.emph w2 k2 :: withText s2.data.reverse [])))).stack) from rfl]
  rw [hfold]
  show appendNodes (textIfNonempty s0.data)
      (HastNode.text k1 :: appendNodes (textIfNonempty s1.data)
        (HastNode.text k2 :: textIfNonempty s2.data))
    = [HastNode.text (s0 ++ k1 ++ s1 ++ k2 ++ s2)]
  rw [appendNodes_text_head]
  rw [appendNodes_text_head]
  rw [appendNodes_text_textIfNonempty]
  rw [appendNodes_text_text]
  refine congrArg (fun t => [HastNode.text t]) ?_
  refine String_eq_of_data _ _ ?_
  simp only [String_data_append, String_data_mk, List.append_assoc]

/-- Parsing text and three emphasis markers where the second and third match: the outer
unmatched frame is flushed literally, and its accumulated children — including the
matched emphasis element — are preserved. -/
theorem parse_three_markers (w1 w2 : Bool) (k1 k2 k3 : String)
    (s0 s1 s2 s3 : String) (hc0 : ':' ∉ s0.data) (hc1 : ':' ∉ s1.data)
    (hc2 : ':' ∉ s2.data) (hc3 : ':' ∉ s3.data) (hw : w1 ≠ w2) :
    (inlineMarkdownTokensToHast
        (withText s0.data.reverse (Token.emph w1 k1 :: withText s1.data.reverse
          (Token.emph w2 k2 :: withText s2.data.reverse
            (Token.emph w2 k3 :: withText s3.data.reverse [])))) true).children
      = HastNode.text (s0 ++ k1 ++ s1)
          :: HastNode.element (if w2 then "strong" else "em") [] (textIfNonempty s2.data)
          :: textIfNonempty s3.data := by
  have hfold : List.foldl (stepToken true (parseLinkLabel true)) ⟨[], []⟩
      (withText s0.data.reverse (Token.emph w1 k1 :: withText s1.data.reverse
        (Token.emph w2 k2 :: withText s2.data.reverse
          (Token.emph w2 k3 :: withText s3.data.reverse []))))
      = ⟨textIfNonempty s0.data,
          [⟨w1, k1, appendNodes
            (appendNode (textIfNonempty s1.data)
              (HastNode.element (if w2 then "strong" else "em") []
                (textIfNonempty s2.data)))
            (textIfNonempty s3.data)⟩]⟩ := by
    rw [foldl_withText_plain _ s0.data hc0]
    rw [foldl_pushNode_textIfNonempty_nil, appendNodes_nil_textIfNonempty]
    rw [List.foldl_cons]
    rw [show stepToken true (parseLinkLabel true) ⟨textIfNonempty s0.data, []⟩
        (Token.emph w1 k1) = (⟨textIfNonempty s0.data, [⟨w1, k1, []⟩]⟩ : PState)
        from rfl]
    rw [foldl_withText_plain _ s1.data hc1]
    rw [foldl_pushNode_TI_cons, appendNodes_nil_textIfNonempty]
    rw [List.foldl_cons]
    rw [show stepToken true (parseLinkLabel true)
        ⟨textIfNonempty s0.data, [⟨w1, k1, textIfNonempty s1.data⟩]⟩ (Token.emph w2 k2)
        = stepEmph w2 k2
            ⟨textIfNonempty s0.data, [⟨w1, k1, textIfNonempty s1.data⟩]⟩ from rfl]
    rw [stepEmph_open_one w1 w2 hw k2 (textIfNonempty s0.data)
      ⟨w1, k1, textIfNonempty s1.data⟩ rfl]
    rw [foldl_withText_plain _ s2.data hc2]
    rw [foldl_pushNode_TI_cons, appendNodes_nil_textIfNonempty]
    rw [List.foldl_cons]
    rw [show stepToken true (parseLinkLabel true)
        ⟨textIfNonempty s0.data,
          [⟨w2, k2, textIfNonempty s2.data⟩, ⟨w1, k1, textIfNonempty s1.data⟩]⟩
        (Token.emph w2 k3)
        = stepEmph w2 k3
            ⟨textIfNonempty s0.data,
              [⟨w2, k2, textIfNonempty s2.data⟩, ⟨w1, k1, textIfNonempty s1.data⟩]⟩
        from rfl]
    rw [stepEmph_close_top w2 k2 k3 (textIfNonempty s2.data) (textIfNonempty s0.data)
      [⟨w1, k1, textIfNonempty s1.data⟩]]
    rw [show pushNode ⟨textIfNonempty s0.data, [⟨w1, k1, textIfNonempty s1.data⟩]⟩
        (HastNode.element (if w2 then "strong" else "em") [] (textIfNonempty s2.data))
        = (⟨textIfNonempty s0.data,
            [⟨w1, k1, appendNode (textIfNonempty s1.data)
              (HastNode.element (if w2 then "strong" else "em") []
                (textIfNonempty s2.data))⟩]⟩ : PState) from rfl]
    rw [foldl_withText_plain _ s3.data hc3]
    rw [foldl_pushNode_TI_cons]
    rw [List.foldl_nil]
  rw [show (inlineMarkdownTokensToHast
        (withText s0.data.reverse (Token.emph w1 k1 :: withText s1.data.reverse
          (Token.emph w2 k2 :: withText s2.data.reverse
            (Token.emph w2 k3 :: withText s3.data.reverse [])))) true).children
      = appendNodes
          (List.foldl (stepToken true (parseLinkLabel true)) ⟨[], []⟩
            (withText s0.data.reverse (Token.emph w1 k1 :: withText s1.data.reverse
              (Token.emph w2 k2 :: withText s2.data.reverse
                (Token.emph w2 k3 :: withText s3.data.reverse []))))).root
          (finalizeLoop []
            (List.foldl (stepToken true (parseLinkLabel true)) ⟨[], []⟩
              (withText s0.data.reverse (Token.emph w1 k1 :: withText s1.data.reverse
                (Token.emph w2 k2 :: withText s2.data.reverse
                  (Token.emph w2 k3 :: withText s3.data.reverse []))))).stack)
      from rfl]
  rw [hfold]
  show appendNodes (textIfNonempty s0.data)
      (HastNode.text k1 :: appendNodes
        (appendNode (textIfNonempty s1.data)
          (HastNode.element (if w2 then "strong" else "em") [] (textIfNonempty s2.data)))
        (textIfNonempty s3.data))
    = HastNode.text (s0 ++ k1 ++ s1)
        :: HastNode.element (if w2 then "strong" else "em") [] (textIfNonempty s2.data)
        :: textIfNonempty s3.data
  rw [appendNode_textIfNonempty_element]
  rw [appendNodes_elem_last_textIfNonempty]
  rw [appendNodes_text_head]
  rw [appendNodes_append]
  rw [appendNodes_text_textIfNonempty]
  rw [appendNodes_text_elem_cons]
  rw [appendNodes_pair_elem]

/-- C8: unmatched emphasis markers degrade to literal text without dropping input.  The
parser matches emphasis frames by weight alone, so at most two open markers (one per
weight) can be simultaneously unmatched over ordinary text; the three quantified
families below therefore cover every such input: (1) ordinary text around one unmatched
marker of either character and weight, (2) ordinary text around two unmatched markers of
distinct weights, and (3) a matched marker pair nested inside an unmatched marker, whose
flush preserves the accumulated emphasis element.  In every family each unmatched open
frame is flushed as the literal text of its original marker characters followed by its
accumulated children, and no character of the input is dropped.  The side conditions
`s1 ≠ "" ∨ m1 ≠ m2` reflect the tokenizer, which regroups adjacent same-character
marker runs before the parser sees them.  The final conjunct is the spec's
`fromInlineMarkdown "*a"` example, yielding the literal text `"*a"` with no emphasis
element. -/
theorem unmatched_markers_flush_literal :
    (∀ (m : Char), (m = '*' ∨ m = '_') → ∀ (w : Bool) (s0 s1 : String),
      (∀ c ∈ s0.data, PlainChar c) → (∀ c ∈ s1.data, PlainChar c) →
      (fromInlineMarkdown (s0 ++ markerChars m w ++ s1) {}).children
        = [HastNode.text (s0 ++ markerChars m w ++ s1)]) ∧
    (∀ (m1 m2 : Char), (m1 = '*' ∨ m1 = '_') → (m2 = '*' ∨ m2 = '_') →
      ∀ (w1 w2 : Bool), w1 ≠ w2 → ∀ (s0 s1 s2 : String),
      (∀ c ∈ s0.data, PlainChar c) → (∀ c ∈ s1.data, PlainChar c) →
      (∀ c ∈ s2.data, PlainChar c) → (s1 ≠ "" ∨ m1 ≠ m2) →
      (fromInlineMarkdown (s0 ++ markerChars m1 w1 ++ s1 ++ markerChars m2 w2 ++ s2)
          {}).children
        = [HastNode.text
            (s0 ++ markerChars m1 w1 ++ s1 ++ markerChars m2 w2 ++ s2)]) ∧
    (∀ (m1 m2 m3 : Char), (m1 = '*' ∨ m1 = '_') → (m2 = '*' ∨ m2 = '_') →
      (m3 = '*' ∨ m3 = '_') → ∀ (w1 w2 : Bool), w1 ≠ w2 → ∀ (s0 s1 s2 s3 : String),
      (∀ c ∈ s0.data, PlainChar c) → (∀ c ∈ s1.data, PlainChar c) →
      (∀ c ∈ s2.data, PlainChar c) → (∀ c ∈ s3.data, PlainChar c) →
      (s1 ≠ "" ∨ m1 ≠ m2) → (s2 ≠ "" ∨ m2 ≠ m3) →
      (fromInlineMarkdown (s0 ++ markerChars m1 w1 ++ s1 ++ markerChars m2 w2 ++ s2
          ++ markerChars m3 w2 ++ s3) {}).children
        = [HastNode.text (s0 ++ markerChars m1 w1 ++ s1),
            HastNode.element (if w2 then "strong" else "em") []
              (textIfNonempty s2.data)]
          ++ textIfNonempty s3.data) ∧
    (fromInlineMarkdown "*a" {}).children = [HastNode.text "*a"] := by
  refine ⟨?_, ?_, ?_, rfl⟩
  · intro m hm w s0 s1 h0 h1
    have hnl : '\n' ∉ (s0 ++ markerChars m w ++ s1).data :=
      no_newline_append _ _
        (no_newline_append _ _ (no_newline_plain s0 h0) (no_newline_marker m hm w))
        (no_newline_plain s1 h1)
    have hnorm : normalizeLineBreaks (s0 ++ markerChars m w ++ s1)
        = s0 ++ markerChars m w ++ s1 := by
      unfold normalizeLineBreaks
      rw [normFuel_no_newline _ _ hnl]
    have hcoll : collapseNewlines (s0 ++ markerChars m w ++ s1)
        = s0 ++ markerChars m w ++ s1 := by
      unfold collapseNewlines
      rw [collapseFuel_no_newline _ _ hnl]
    rw [flat_children, hnorm, hcoll]
    rw [tokenize_one_marker m hm w s0 s1 h0 h1]
    exact parse_one_marker w (markerChars m w) s0 s1
      (no_colon_plain s0 h0) (no_colon_plain s1 h1)
  · intro m1 m2 hm1 hm2 w1 w2 hw s0 s1 s2 h0 h1 h2 hadj
    have hnl : '\n' ∉ (s0 ++ markerChars m1 w1 ++ s1 ++ markerChars m2 w2 ++ s2).data :=
      no_newline_append _ _
        (no_newline_append _ _
          (no_newline_append _ _
            (no_newline_append _ _ (no_newline_plain s0 h0)
              (no_newline_marker m1 hm1 w1))
            (no_newline_plain s1 h1))
          (no_newline_marker m2 hm2 w2))
        (no_newline_plain s2 h2)
    have hnorm : normalizeLineBreaks
        (s0 ++ markerChars m1 w1 ++ s1 ++ markerChars m2 w2 ++ s2)
        = s0 ++ markerChars m1 w1 ++ s1 ++ markerChars m2 w2 ++ s2 := by
      unfold normalizeLineBreaks
      rw [normFuel_no_newline _ _ hnl]
    have hcoll : collapseNewlines
        (s0 ++ markerChars m1 w1 ++ s1 ++ markerChars m2 w2 ++ s2)
        = s0 ++ markerChars m1 w1 ++ s1 ++ markerChars m2 w2 ++ s2 := by
      unfold collapseNewlines
      rw [collapseFuel_no_newline _ _ hnl]
    rw [flat_children, hnorm, hcoll]
    rw [tokenize_two_markers m1 m2 hm1 hm2 w1 w2 s0 s1 s2 h0 h1 h2 hadj]
    exact parse_two_markers w1 w2 hw (markerChars m1 w1) (markerChars m2 w2) s0 s1 s2
      (no_colon_plain s0 h0) (no_colon_plain s1 h1) (no_colon_plain s2 h2)
  · intro m1 m2 m3 hm1 hm2 hm3 w1 w2 hw s0 s1 s2 s3 h0 h1 h2 h3 hadj1 hadj2
    have hnl : '\n' ∉ (s0 ++ markerChars m1 w1 ++ s1 ++ markerChars m2 w2 ++ s2
        ++ markerChars m3 w2 ++ s3).data :=
      no_newline_append _ _
        (no_newline_append _ _
          (no_newline_append _ _
            (no_newline_append _ _
              (no_newline_append _ _
                (no_newline_append _ _ (no_newline_plain s0 h0)
                  (no_newline_marker m1 hm1 w1))
                (no_newline_plain s1 h1))
              (no_newline_marker m2 hm2 w2))
            (no_newline_plain s2 h2))
          (no_newline_marker m3 hm3 w2))
        (no_newline_plain s3 h3)
    have hnorm : normalizeLineBreaks (s0 ++ markerChars m1 w1 ++ s1
        ++ markerChars m2 w2 ++ s2 ++ markerChars m3 w2 ++ s3)
        = s0 ++ markerChars m1 w1 ++ s1 ++ markerChars m2 w2 ++ s2
          ++ markerChars m3 w2 ++ s3 := by
      unfold normalizeLineBreaks
      rw [normFuel_no_newline _ _ hnl]
    have hcoll : collapseNewlines (s0 ++ markerChars m1 w1 ++ s1
        ++ markerChars m2 w2 ++ s2 ++ markerChars m3 w2 ++ s3)
        = s0 ++ markerChars m1 w1 ++ s1 ++ markerChars m2 w2 ++ s2
          ++ markerChars m3 w2 ++ s3 := by
      unfold collapseNewlines
      rw [collapseFuel_no_newline _ _ hnl]
    rw [flat_children, hnorm, hcoll]
    rw [tokenize_three_markers m1 m2 m3 hm1 hm2 hm3 w1 w2 s0 s1 s2 s3 h0 h1 h2 h3
      hadj1 hadj2]
    exact parse_three_markers w1 w2 (markerChars m1 w1) (markerChars m2 w2)
      (markerChars m3 w2) s0 s1 s2 s3 (no_colon_plain s0 h0) (no_colon_plain s1 h1)
      (no_colon_plain s2 h2) (no_colon_plain s3 h3) hw

/-- C8 witness: a concrete two-marker mixed input — text around an unmatched single
asterisk and an unmatched double underscore — comes back as one literal text node. -/
theorem unmatched_markers_flush_literal_witness :
    (fromInlineMarkdown ("x" ++ markerChars '*' false ++ "y" ++ markerChars '_' true
        ++ "z") {}).children
      = [HastNode.text ("x" ++ markerChars '*' false ++ "y" ++ markerChars '_' true
          ++ "z")] :=
  unmatched_markers_flush_literal.2.1 '*' '_' (Or.inl rfl) (Or.inr rfl) false true
    (by decide) "x" "y" "z" (by decide) (by decide) (by decide) (Or.inl (by decide))

end ExpressiveCode
